import Mathlib

/-!
Shallow embedding of the connect-four board engine (`src/board.py`,
`src/enums.py`, `config.py`, `src/ai_player.py`) together with the
verification of the specified properties.

The mutable Python `GameBoard` object is modelled as an immutable
`GameBoard` structure; mutating methods become state-passing functions
returning a pair of the Python return value and the updated board.
-/

namespace Connect4

/-- `Player` enumeration from `src/enums.py` (symbols dropped: only identity
matters to the engine). -/
inductive Player where
  | RED
  | YELLOW
  | EMPTY
deriving DecidableEq, Repr

/-- `Player.opposite` from `src/enums.py`. -/
def Player.opposite : Player → Player
  | Player.RED => Player.YELLOW
  | Player.YELLOW => Player.RED
  | Player.EMPTY => Player.EMPTY

/-- `GameState` enumeration from `src/enums.py`. -/
inductive GameState where
  | PLAYING
  | RED_WINS
  | YELLOW_WINS
  | DRAW
deriving DecidableEq, Repr

/-- `MoveResult` enumeration from `src/enums.py`. -/
inductive MoveResult where
  | SUCCESS
  | INVALID_COLUMN
  | COLUMN_FULL
  | GAME_OVER
deriving DecidableEq, Repr

/-- `Direction` enumeration from `src/enums.py`. -/
inductive Direction where
  | HORIZONTAL
  | VERTICAL
  | DIAGONAL_RIGHT
  | DIAGONAL_LEFT
deriving DecidableEq, Repr

/-- `Direction.delta_row` property. -/
def Direction.delta_row : Direction → Int
  | Direction.HORIZONTAL => 0
  | Direction.VERTICAL => 1
  | Direction.DIAGONAL_RIGHT => 1
  | Direction.DIAGONAL_LEFT => 1

/-- `Direction.delta_col` property. -/
def Direction.delta_col : Direction → Int
  | Direction.HORIZONTAL => 1
  | Direction.VERTICAL => 0
  | Direction.DIAGONAL_RIGHT => 1
  | Direction.DIAGONAL_LEFT => -1

/-- Iteration order of `for direction in Direction` (enum definition order). -/
def Direction.all : List Direction :=
  [Direction.HORIZONTAL, Direction.VERTICAL,
   Direction.DIAGONAL_RIGHT, Direction.DIAGONAL_LEFT]

/-- `Position` dataclass from `src/enums.py`; Python ints become `Int`. -/
structure Position where
  row : Int
  col : Int
deriving DecidableEq, Repr

/-- `Position.is_valid` from `src/enums.py`. -/
def Position.is_valid (p : Position) (max_rows max_cols : Nat) : Bool :=
  decide (0 ≤ p.row) && decide (p.row < (max_rows : Int)) &&
  decide (0 ≤ p.col) && decide (p.col < (max_cols : Int))

/-- `Position.move_by_direction` from `src/enums.py`. -/
def Position.move_by_direction (p : Position) (d : Direction) (steps : Int) : Position :=
  { row := p.row + d.delta_row * steps, col := p.col + d.delta_col * steps }

/-- `GameConfig` from `config.py` (pydantic model fields). -/
structure GameConfig where
  rows : Nat
  cols : Nat
  win_length : Nat
deriving DecidableEq, Repr

/-- The pydantic validation of `GameConfig` (`ge`/`le` field bounds plus the
`validate_win_length` check): the construction-time contract. -/
def GameConfig.valid (cfg : GameConfig) : Prop :=
  4 ≤ cfg.rows ∧ cfg.rows ≤ 10 ∧ 4 ≤ cfg.cols ∧ cfg.cols ≤ 10 ∧
  3 ≤ cfg.win_length ∧ cfg.win_length ≤ 8 ∧
  cfg.win_length ≤ max cfg.rows cfg.cols

instance (cfg : GameConfig) : Decidable cfg.valid := by
  unfold GameConfig.valid; infer_instance

/-- The `GameBoard` object from `src/board.py`: grid (row 0 = top) plus the
move history list (`(position, player)` pairs, oldest first, as in Python). -/
structure GameBoard where
  config : GameConfig
  board : List (List Player)
  move_history : List (Position × Player)
deriving DecidableEq, Repr

/-- Read `board[r][c]` (all Python reads are index-guarded, so the
out-of-range default never matters on guarded paths). -/
def getCell (bd : List (List Player)) (r c : Nat) : Player :=
  (bd.getD r []).getD c Player.EMPTY

/-- Write `board[r][c] = p`. -/
def setCell (bd : List (List Player)) (r c : Nat) (p : Player) : List (List Player) :=
  bd.set r ((bd.getD r []).set c p)

/-- Read `board[pos.row][pos.col]`; used only where the position has been
checked valid (so both coordinates are nonnegative and in range). -/
def cellAtPos (bd : List (List Player)) (p : Position) : Player :=
  getCell bd p.row.toNat p.col.toNat

/-- `GameBoard.__init__`: all cells `EMPTY`, empty history. -/
def GameBoard.new (cfg : GameConfig) : GameBoard :=
  { config := cfg
    board := List.replicate cfg.rows (List.replicate cfg.cols Player.EMPTY)
    move_history := [] }

/-- `GameBoard.is_valid_move` from `src/board.py`: range check on the 1-based
column, then the row-0 (top) cell of the column must be `EMPTY`. -/
def GameBoard.is_valid_move (b : GameBoard) (col : Int) : Bool :=
  let col_idx := col - 1
  if col_idx < 0 || (b.config.cols : Int) ≤ col_idx then false
  else getCell b.board 0 col_idx.toNat == Player.EMPTY

/-- The `for row in range(rows - 1, -1, -1)` scan of `make_move`: called with
the row count, it checks row `n-1` first and walks upward, returning the first
(= largest-index) row whose cell is `EMPTY`. -/
def scanColumn (bd : List (List Player)) (ci : Nat) : Nat → Option Nat
  | 0 => none
  | n + 1 => if getCell bd n ci == Player.EMPTY then some n else scanColumn bd ci n

/-- `GameBoard.make_move` from `src/board.py`. -/
def GameBoard.make_move (b : GameBoard) (col : Int) (player : Player) :
    MoveResult × GameBoard :=
  let col_idx := col - 1
  if !(b.is_valid_move col) then
    if col_idx < 0 || (b.config.cols : Int) ≤ col_idx then
      (MoveResult.INVALID_COLUMN, b)
    else
      (MoveResult.COLUMN_FULL, b)
  else
    match scanColumn b.board col_idx.toNat b.config.rows with
    | some row =>
        (MoveResult.SUCCESS,
          { b with
            board := setCell b.board row col_idx.toNat player
            move_history :=
              b.move_history ++ [({ row := (row : Int), col := col_idx }, player)] })
    | none => (MoveResult.COLUMN_FULL, b)

/-- The `while` loop body of `_check_line`: starting at `pos`, count how many
consecutive cells equal `player` stepping by `direction * mult` each time,
stopping at the board edge or a differing cell.  The Python loop is modelled
with explicit fuel; `_check_line` passes `rows + cols`, which exceeds the
number of in-bounds steps any unit direction can take. -/
def countDir (b : GameBoard) (player : Player) (pos : Position)
    (d : Direction) (mult : Int) : Nat → Nat
  | 0 => 0
  | fuel + 1 =>
    if pos.is_valid b.config.rows b.config.cols && (cellAtPos b.board pos == player) then
      countDir b player (pos.move_by_direction d mult) d mult fuel + 1
    else 0

/-- `GameBoard._check_line` from `src/board.py`. -/
def GameBoard.check_line (b : GameBoard) (start_position : Position)
    (d : Direction) : Option Player :=
  let player := cellAtPos b.board start_position
  if player = Player.EMPTY then none
  else
    let fuel := b.config.rows + b.config.cols
    let count := 1 + countDir b player (start_position.move_by_direction d 1) d 1 fuel
        + countDir b player (start_position.move_by_direction d (-1)) d (-1) fuel
    if b.config.win_length ≤ count then some player else none

/-- The `for direction in Direction` loop of
`_check_all_directions_from_position`. -/
def checkDirsAux (b : GameBoard) (pos : Position) : List Direction → Option Player
  | [] => none
  | d :: ds =>
    match b.check_line pos d with
    | some w => if w ≠ Player.EMPTY then some w else checkDirsAux b pos ds
    | none => checkDirsAux b pos ds

/-- `GameBoard._check_all_directions_from_position` from `src/board.py`. -/
def GameBoard.check_all_directions_from_position (b : GameBoard)
    (pos : Position) : Option Player :=
  checkDirsAux b pos Direction.all

/-- Row-major cell iteration order of `_find_winner_on_board`. -/
def allCells (rows cols : Nat) : List (Nat × Nat) :=
  (List.range rows).flatMap (fun r => (List.range cols).map (fun c => (r, c)))

/-- The nested `for row`/`for col` loops of `_find_winner_on_board`:
first occupied cell whose direction check yields a winner. -/
def findWinnerInCells (b : GameBoard) : List (Nat × Nat) → Option Player
  | [] => none
  | (r, c) :: rest =>
    let position : Position := { row := (r : Int), col := (c : Int) }
    if cellAtPos b.board position ≠ Player.EMPTY then
      match b.check_all_directions_from_position position with
      | some w => some w
      | none => findWinnerInCells b rest
    else findWinnerInCells b rest

/-- `GameBoard._find_winner_on_board` from `src/board.py`. -/
def GameBoard.find_winner_on_board (b : GameBoard) : Option Player :=
  findWinnerInCells b (allCells b.config.rows b.config.cols)

/-- `GameBoard.is_full` from `src/board.py`: every top-row cell occupied. -/
def GameBoard.is_full (b : GameBoard) : Bool :=
  (List.range b.config.cols).all (fun c => getCell b.board 0 c != Player.EMPTY)

/-- `GameBoard._player_to_game_state` from `src/board.py` (dict lookup with
`PLAYING` default). -/
def player_to_game_state : Player → GameState
  | Player.RED => GameState.RED_WINS
  | Player.YELLOW => GameState.YELLOW_WINS
  | Player.EMPTY => GameState.PLAYING

/-- `GameBoard.check_winner` from `src/board.py`. -/
def GameBoard.check_winner (b : GameBoard) : GameState :=
  match b.find_winner_on_board with
  | some w => player_to_game_state w
  | none => if b.is_full then GameState.DRAW else GameState.PLAYING

/-- `GameBoard.get_valid_moves` from `src/board.py`. -/
def GameBoard.get_valid_moves (b : GameBoard) : List Int :=
  ((List.range b.config.cols).filter (fun c : Nat => b.is_valid_move ((c : Int) + 1))).map
    (fun c : Nat => (c : Int) + 1)

/-- `GameBoard.reset` from `src/board.py`. -/
def GameBoard.reset (b : GameBoard) : GameBoard :=
  { b with
    board := List.replicate b.config.rows (List.replicate b.config.cols Player.EMPTY)
    move_history := [] }

/-- `GameBoard.undo_last_move` from `src/board.py`: pop the last history
entry, clear its cell. -/
def GameBoard.undo_last_move (b : GameBoard) : Bool × GameBoard :=
  match b.move_history.getLast? with
  | none => (false, b)
  | some (position, _player) =>
      (true,
        { b with
          board := setCell b.board position.row.toNat position.col.toNat Player.EMPTY
          move_history := b.move_history.dropLast })

/-- Python `max` over a non-empty list (guarded by the caller). -/
def listMax : List Int → Int
  | [] => 0
  | x :: xs => xs.foldl max x

/-- Python `min` over a non-empty list (guarded by the caller). -/
def listMin : List Int → Int
  | [] => 0
  | x :: xs => xs.foldl min x

/-- Stable insertion into a key-sorted list: the new element goes before the
first element with a strictly larger key, hence before elements of equal key
that occurred later in the input. -/
def insertByKey (key : Int → Int) (x : Int) : List Int → List Int
  | [] => [x]
  | y :: ys => if key x ≤ key y then x :: y :: ys else y :: insertByKey key x ys

/-- Python's `sorted(l, key=...)`: Python guarantees a stable sort, and a
stable sort by a total key is extensionally unique, so stable insertion sort
is a faithful model. -/
def sortByKey (key : Int → Int) : List Int → List Int
  | [] => []
  | x :: xs => insertByKey key x (sortByKey key xs)

/-- `AIPlayer._prefer_center_columns` from `src/ai_player.py`.
`center_col = (max + min) // 2` uses Python floor division (`Int.fdiv`);
`sorted(..., key=lambda x: abs(x - center_col))` is the stable sort above. -/
def prefer_center_columns (valid_moves : List Int) : Option Int :=
  if valid_moves = [] then none
  else
    let center_col := Int.fdiv (listMax valid_moves + listMin valid_moves) 2
    let sorted_moves := sortByKey (fun x => |x - center_col|) valid_moves
    sorted_moves.head?

/-- The `for move in valid_moves` loop of `AIPlayer._find_winning_move`,
threading the (mutated then restored) board: apply the move, check the
winner, undo, return the move if the check left `PLAYING`. -/
def find_winning_move_loop (player : Player) :
    GameBoard → List Int → Option Int × GameBoard
  | b, [] => (none, b)
  | b, m :: ms =>
    let b1 := (b.make_move m player).2
    if b1.check_winner ≠ GameState.PLAYING then
      (some m, b1.undo_last_move.2)
    else
      find_winning_move_loop player b1.undo_last_move.2 ms

/-- `AIPlayer._find_winning_move` from `src/ai_player.py`. -/
def find_winning_move (b : GameBoard) (player : Player) : Option Int × GameBoard :=
  find_winning_move_loop player b b.get_valid_moves

/-- `AIPlayer.get_move` from `src/ai_player.py` on the deterministic path,
i.e. when the exploration branch (`random.random() < 0.3`) is NOT taken:
try an own winning move, then a block of the opponent's winning move, then
the center preference.  (`if win_move:` truthiness agrees with `Option`
matching because every returned column number is ≥ 1.) -/
def get_move_strategic (b : GameBoard) (player : Player) : Option Int × GameBoard :=
  let valid_moves := b.get_valid_moves
  if valid_moves = [] then (none, b)
  else
    match find_winning_move b player with
    | (some m, b1) => (some m, b1)
    | (none, b1) =>
      match find_winning_move b1 player.opposite with
      | (some m, b2) => (some m, b2)
      | (none, b2) => (prefer_center_columns valid_moves, b2)

/-! ## Specification-side notions -/

/-- The grid has the dimensions the configuration promises. -/
def wellFormed (b : GameBoard) : Prop :=
  b.board.length = b.config.rows ∧ ∀ row ∈ b.board, row.length = b.config.cols

/-- The gravity invariant: in every column, a cell directly above an empty
cell is empty — equivalently, every cell below an occupied cell is occupied
(row indices grow downward). -/
def gravityOK (b : GameBoard) : Prop :=
  ∀ c < b.config.cols, ∀ r < b.config.rows - 1,
    getCell b.board (r + 1) c = Player.EMPTY → getCell b.board r c = Player.EMPTY

instance (b : GameBoard) : Decidable (gravityOK b) := by
  unfold gravityOK; infer_instance

/-- Column `ci` (0-based) contains at least one `EMPTY` cell. -/
def colHasEmpty (b : GameBoard) (ci : Nat) : Prop :=
  ∃ r < b.config.rows, getCell b.board r ci = Player.EMPTY

instance (b : GameBoard) (ci : Nat) : Decidable (colHasEmpty b ci) := by
  unfold colHasEmpty; infer_instance

/-- `r` is the lowest (largest row index) empty cell of column `ci`. -/
def lowestEmptyRow (b : GameBoard) (ci r : Nat) : Prop :=
  r < b.config.rows ∧ getCell b.board r ci = Player.EMPTY ∧
    ∀ r', r < r' → r' < b.config.rows → getCell b.board r' ci ≠ Player.EMPTY

/-- Player `p` owns a straight run of `win_length` consecutive cells along
one of the four direction axes (a run in the opposite orientation of an axis
is the same run read from its other end, so the four axes cover all eight
radii). -/
def hasWinRun (b : GameBoard) (p : Player) : Prop :=
  p ≠ Player.EMPTY ∧ ∃ (pos : Position) (d : Direction),
    ∀ i < b.config.win_length,
      (pos.move_by_direction d (i : Int)).is_valid b.config.rows b.config.cols = true ∧
      cellAtPos b.board (pos.move_by_direction d (i : Int)) = p

/-- Board states reachable from a freshly constructed board through any
sequence of `make_move`, `undo_last_move` and `reset` calls, where
`make_move` is called with a player mark (PlayerA/PlayerB, never the
`EMPTY` cell value) as the spec's `place(column, player)` prescribes. -/
inductive Reachable (cfg : GameConfig) : GameBoard → Prop where
  | init : Reachable cfg (GameBoard.new cfg)
  | step_move (b : GameBoard) (col : Int) (p : Player) :
      p ≠ Player.EMPTY → Reachable cfg b → Reachable cfg (b.make_move col p).2
  | step_undo (b : GameBoard) :
      Reachable cfg b → Reachable cfg b.undo_last_move.2
  | step_reset (b : GameBoard) :
      Reachable cfg b → Reachable cfg b.reset

/-! ## List access helper lemmas -/

theorem list_getD_set_self {α : Type} (l : List α) (i : Nat) (x d : α)
    (h : i < l.length) : (l.set i x).getD i d = x := by
  induction l generalizing i with
  | nil => simp at h
  | cons a as ih =>
    cases i with
    | zero => rfl
    | succ j => exact ih j (by simpa using h)

theorem list_getD_set_ne {α : Type} (l : List α) (i j : Nat) (x d : α)
    (h : i ≠ j) : (l.set i x).getD j d = l.getD j d := by
  induction l generalizing i j with
  | nil => simp
  | cons a as ih =>
    cases i with
    | zero => cases j with
      | zero => exact absurd rfl h
      | succ k => rfl
    | succ i' => cases j with
      | zero => rfl
      | succ k => exact ih i' k (fun hh => h (by omega))

theorem list_set_getD {α : Type} (l : List α) (i : Nat) (d : α)
    (h : i < l.length) : l.set i (l.getD i d) = l := by
  induction l generalizing i with
  | nil => simp at h
  | cons a as ih =>
    cases i with
    | zero => rfl
    | succ j => simpa using ih j (by simpa using h)

theorem list_set_oob {α : Type} (l : List α) (i : Nat) (x : α)
    (h : l.length ≤ i) : l.set i x = l := by
  induction l generalizing i with
  | nil => rfl
  | cons a as ih =>
    cases i with
    | zero => simp at h
    | succ j => simpa using ih j (by simpa using h)

/-! ## getCell / setCell lemmas -/

theorem getCell_setCell_self (bd : List (List Player)) (r c : Nat) (p : Player)
    (hr : r < bd.length) (hc : c < (bd.getD r []).length) :
    getCell (setCell bd r c p) r c = p := by
  unfold getCell setCell
  rw [list_getD_set_self bd r _ [] hr]
  exact list_getD_set_self _ c _ _ hc

theorem getCell_setCell_ne (bd : List (List Player)) (r c r' c' : Nat) (p : Player)
    (h : r' ≠ r ∨ c' ≠ c) :
    getCell (setCell bd r c p) r' c' = getCell bd r' c' := by
  unfold getCell setCell
  rcases h with h | h
  · rw [list_getD_set_ne bd r r' _ [] (fun hh => h hh.symm)]
  · by_cases hr : r' = r
    · subst hr
      by_cases hlen : r' < bd.length
      · rw [list_getD_set_self bd r' _ [] hlen]
        exact list_getD_set_ne _ c c' _ _ (fun hh => h hh.symm)
      · rw [list_set_oob bd r' _ (by omega)]
    · rw [list_getD_set_ne bd r r' _ [] (fun hh => hr hh.symm)]

theorem setCell_setCell (bd : List (List Player)) (r c : Nat) (p q : Player)
    (hr : r < bd.length) :
    setCell (setCell bd r c p) r c q = setCell bd r c q := by
  unfold setCell
  rw [list_getD_set_self bd r _ [] hr, List.set_set, List.set_set]

theorem setCell_cancel (bd : List (List Player)) (r c : Nat)
    (hr : r < bd.length) (hc : c < (bd.getD r []).length) :
    setCell bd r c (getCell bd r c) = bd := by
  unfold setCell getCell
  rw [list_set_getD _ c _ hc, list_set_getD _ r _ hr]

theorem length_setCell (bd : List (List Player)) (r c : Nat) (p : Player) :
    (setCell bd r c p).length = bd.length := by
  unfold setCell; simp

theorem wellFormed_setCell (b : GameBoard) (r c : Nat) (p : Player)
    (hwf : wellFormed b) (bf : List (Position × Player)) :
    wellFormed { b with board := setCell b.board r c p, move_history := bf } := by
  obtain ⟨hlen, hrows⟩ := hwf
  refine ⟨by simpa [setCell] using hlen, ?_⟩
  intro row hrow
  simp only [setCell] at hrow
  by_cases hr : r < b.board.length
  · rcases List.mem_or_eq_of_mem_set hrow with h | h
    · exact hrows row h
    · subst h
      rw [List.length_set]
      refine hrows _ ?_
      rw [List.getD_eq_getElem?_getD, List.getElem?_eq_getElem hr, Option.getD_some]
      exact List.getElem_mem hr
  · rw [list_set_oob _ _ _ (by omega)] at hrow
    exact hrows row hrow

/-! ## scanColumn lemmas -/

theorem scanColumn_none_iff (bd : List (List Player)) (ci n : Nat) :
    scanColumn bd ci n = none ↔ ∀ r < n, getCell bd r ci ≠ Player.EMPTY := by
  induction n with
  | zero => simp [scanColumn]
  | succ k ih =>
    simp only [scanColumn, beq_iff_eq]
    by_cases h : getCell bd k ci = Player.EMPTY
    · simp only [h, if_pos rfl]
      constructor
      · intro hcontra; exact absurd hcontra (by simp)
      · intro hall; exact absurd h (hall k (by omega))
    · rw [if_neg h, ih]
      constructor
      · intro hall r hr
        rcases Nat.lt_succ_iff_lt_or_eq.mp hr with hlt | heq
        · exact hall r hlt
        · subst heq; exact h
      · intro hall r hr; exact hall r (by omega)

theorem scanColumn_some (bd : List (List Player)) (ci n r : Nat)
    (h : scanColumn bd ci n = some r) :
    r < n ∧ getCell bd r ci = Player.EMPTY ∧
      ∀ r', r < r' → r' < n → getCell bd r' ci ≠ Player.EMPTY := by
  induction n with
  | zero => simp [scanColumn] at h
  | succ k ih =>
    simp only [scanColumn, beq_iff_eq] at h
    by_cases hc : getCell bd k ci = Player.EMPTY
    · rw [if_pos hc] at h
      obtain rfl : k = r := by simpa using h
      exact ⟨by omega, hc, fun r' h1 h2 => by omega⟩
    · rw [if_neg hc] at h
      obtain ⟨h1, h2, h3⟩ := ih h
      refine ⟨by omega, h2, fun r' hlt hub => ?_⟩
      rcases Nat.lt_succ_iff_lt_or_eq.mp hub with hlt' | heq
      · exact h3 r' hlt hlt'
      · subst heq; exact hc

theorem scanColumn_isSome (bd : List (List Player)) (ci n : Nat)
    (h : ∃ r < n, getCell bd r ci = Player.EMPTY) :
    ∃ r, scanColumn bd ci n = some r := by
  cases hs : scanColumn bd ci n with
  | none =>
    obtain ⟨r, hr, he⟩ := h
    exact absurd he ((scanColumn_none_iff bd ci n).mp hs r hr)
  | some r => exact ⟨r, rfl⟩

/-! ## make_move characterization -/

theorem is_valid_move_iff (b : GameBoard) (col : Int) :
    b.is_valid_move col = true ↔
      1 ≤ col ∧ col ≤ (b.config.cols : Int) ∧
        getCell b.board 0 (col - 1).toNat = Player.EMPTY := by
  unfold GameBoard.is_valid_move
  by_cases h : (col - 1 < 0 : Prop) ∨ ((b.config.cols : Int) ≤ col - 1 : Prop)
  · rw [if_pos (by simpa using h)]
    simp only [Bool.false_eq_true, false_iff, not_and]
    intro h1 h2
    rcases h with h | h <;> omega
  · rw [if_neg (by simpa using h)]
    push_neg at h
    simp only [beq_iff_eq]
    exact ⟨fun he => ⟨by omega, by omega, he⟩, fun ⟨_, _, he⟩ => he⟩

/-- The board produced by a successful `make_move` (the record assigned in the
`SUCCESS` branch). -/
def mkSuccessBoard (b : GameBoard) (col : Int) (p : Player) (row : Nat) : GameBoard :=
  { b with
    board := setCell b.board row (col - 1).toNat p
    move_history := b.move_history ++ [({ row := (row : Int), col := col - 1 }, p)] }

theorem make_move_invalid (b : GameBoard) (col : Int) (p : Player)
    (h : col < 1 ∨ (b.config.cols : Int) < col) :
    b.make_move col p = (MoveResult.INVALID_COLUMN, b) := by
  have hib : b.is_valid_move col = false := by
    cases hb : b.is_valid_move col with
    | false => rfl
    | true =>
      obtain ⟨h1, h2, _⟩ := (is_valid_move_iff b col).mp hb
      rcases h with h | h <;> omega
  unfold GameBoard.make_move
  rw [hib]
  simp only [Bool.not_false, if_true]
  rw [if_pos]
  simp only [Bool.or_eq_true, decide_eq_true_eq]
  rcases h with h | h
  · exact Or.inl (by omega)
  · exact Or.inr (by omega)

theorem make_move_cases (b : GameBoard) (col : Int) (p : Player)
    (h1 : 1 ≤ col) (h2 : col ≤ (b.config.cols : Int)) :
    (getCell b.board 0 (col - 1).toNat ≠ Player.EMPTY ∧
        b.make_move col p = (MoveResult.COLUMN_FULL, b)) ∨
    (getCell b.board 0 (col - 1).toNat = Player.EMPTY ∧
      ((scanColumn b.board (col - 1).toNat b.config.rows = none ∧
          b.make_move col p = (MoveResult.COLUMN_FULL, b)) ∨
       (∃ row, scanColumn b.board (col - 1).toNat b.config.rows = some row ∧
          b.make_move col p = (MoveResult.SUCCESS, mkSuccessBoard b col p row)))) := by
  by_cases htop : getCell b.board 0 (col - 1).toNat = Player.EMPTY
  · right
    refine ⟨htop, ?_⟩
    have hvm : b.is_valid_move col = true :=
      (is_valid_move_iff b col).mpr ⟨h1, h2, htop⟩
    unfold GameBoard.make_move
    rw [hvm]
    simp only [Bool.not_true, if_false]
    cases hs : scanColumn b.board (col - 1).toNat b.config.rows with
    | none => exact Or.inl ⟨rfl, rfl⟩
    | some row => exact Or.inr ⟨row, rfl, rfl⟩
  · left
    refine ⟨htop, ?_⟩
    have hvm : b.is_valid_move col = false := by
      cases hb : b.is_valid_move col with
      | false => rfl
      | true => exact absurd ((is_valid_move_iff b col).mp hb).2.2 htop
    unfold GameBoard.make_move
    rw [hvm]
    simp only [Bool.not_false, if_true]
    rw [if_neg]
    simp only [Bool.or_eq_true, decide_eq_true_eq, not_or]
    exact ⟨by omega, by omega⟩

/-- The three `MoveResult` values `make_move` can yield, with its board
component: used to show failures leave the state unchanged. -/
theorem make_move_result_cases (b : GameBoard) (col : Int) (p : Player) :
    b.make_move col p = (MoveResult.INVALID_COLUMN, b) ∨
    b.make_move col p = (MoveResult.COLUMN_FULL, b) ∨
    ∃ row, b.make_move col p = (MoveResult.SUCCESS, mkSuccessBoard b col p row) := by
  by_cases hr : 1 ≤ col ∧ col ≤ (b.config.cols : Int)
  · rcases make_move_cases b col p hr.1 hr.2 with ⟨_, h⟩ | ⟨_, hin⟩
    · exact Or.inr (Or.inl h)
    · rcases hin with ⟨_, h⟩ | ⟨row, _, h⟩
      · exact Or.inr (Or.inl h)
      · exact Or.inr (Or.inr ⟨row, h⟩)
  · left
    exact make_move_invalid b col p (by omega)

/-! ## Concrete boards used for witnesses -/

/-- The default configuration (`rows=6, cols=7, win_length=4`). -/
def cfgStd : GameConfig := { rows := 6, cols := 7, win_length := 4 }

/-- A freshly constructed default board. -/
def boardStd : GameBoard := GameBoard.new cfgStd

/-- Default board after one move in column 3. -/
def boardStd3 : GameBoard := (boardStd.make_move 3 Player.RED).2

/-- A 4x4 board whose columns 1 and 2 are completely filled. -/
def boardTwoColsFull : GameBoard :=
  { config := { rows := 4, cols := 4, win_length := 4 }
    board := [[Player.RED, Player.YELLOW, Player.EMPTY, Player.EMPTY],
              [Player.YELLOW, Player.RED, Player.EMPTY, Player.EMPTY],
              [Player.RED, Player.YELLOW, Player.EMPTY, Player.EMPTY],
              [Player.YELLOW, Player.RED, Player.EMPTY, Player.EMPTY]]
    move_history := [] }

/-- C7: every failing board command is atomic and non-fatal.  `make_move`
returning `INVALID_COLUMN` or `COLUMN_FULL` leaves grid and history unchanged
(the returned state is the input state, and the embedding is total, so no
exception path exists); `undo_last_move` returns `true` exactly when the
history is non-empty and on empty history returns `false` with the state
unchanged. -/
theorem failing_commands_atomic (b : GameBoard) (col : Int) (p : Player) :
    ((b.make_move col p).1 = MoveResult.INVALID_COLUMN ∨
        (b.make_move col p).1 = MoveResult.COLUMN_FULL →
      (b.make_move col p).2 = b) ∧
    (b.undo_last_move.1 = true ↔ b.move_history ≠ []) ∧
    (b.move_history = [] → b.undo_last_move = (false, b)) := by
  refine ⟨?_, ?_, ?_⟩
  · intro h
    rcases make_move_result_cases b col p with he | he | ⟨row, he⟩
    · rw [he]
    · rw [he]
    · rw [he] at h
      simp at h
  · unfold GameBoard.undo_last_move
    cases hl : b.move_history.getLast? with
    | none =>
      simp only [List.getLast?_eq_none_iff] at hl
      simp [hl]
    | some e =>
      obtain ⟨pos, pl⟩ := e
      simp only [ne_eq, true_iff]
      intro hnil
      rw [hnil] at hl
      simp at hl
  · intro h
    unfold GameBoard.undo_last_move
    rw [h]
    rfl

/-- C7 witness: concrete instances of all three clauses. -/
theorem failing_commands_atomic_witness :
    (boardStd.make_move 0 Player.RED).2 = boardStd ∧
    boardStd3.undo_last_move.1 = true ∧
    boardStd.undo_last_move = (false, boardStd) :=
  ⟨(failing_commands_atomic boardStd 0 Player.RED).1 (Or.inl (by decide)),
   (failing_commands_atomic boardStd3 0 Player.RED).2.1.mpr (by decide),
   (failing_commands_atomic boardStd 0 Player.RED).2.2 (by decide)⟩

/-- C9: `get_valid_moves` returns exactly the 1-based column numbers whose
top (row 0) cell is `EMPTY`, in strictly ascending order; on a fresh 6x7
board it is `[1,...,7]` and on a 4x4 board with columns 1 and 2 full it is
`[3,4]`. -/
theorem get_valid_moves_spec (b : GameBoard) :
    (∀ m : Int, m ∈ b.get_valid_moves ↔
        1 ≤ m ∧ m ≤ (b.config.cols : Int) ∧
          getCell b.board 0 (m - 1).toNat = Player.EMPTY) ∧
    List.Sorted (· < ·) b.get_valid_moves ∧
    boardStd.get_valid_moves = [1, 2, 3, 4, 5, 6, 7] ∧
    boardTwoColsFull.get_valid_moves = [3, 4] := by
  refine ⟨?_, ?_, by decide, by decide⟩
  · intro m
    unfold GameBoard.get_valid_moves
    constructor
    · intro hm
      obtain ⟨c, hcf, rfl⟩ := List.mem_map.mp hm
      obtain ⟨hcr, hv⟩ := List.mem_filter.mp hcf
      obtain ⟨h1, h2, h3⟩ := (is_valid_move_iff b ((c : Int) + 1)).mp hv
      exact ⟨by omega, by omega, h3⟩
    · rintro ⟨h1, h2, h3⟩
      refine List.mem_map.mpr ⟨(m - 1).toNat, List.mem_filter.mpr ⟨?_, ?_⟩, by omega⟩
      · exact List.mem_range.mpr (by omega)
      · apply (is_valid_move_iff b _).mpr
        refine ⟨by omega, by omega, ?_⟩
        have hcn : (((m - 1).toNat : Int) + 1 - 1).toNat = (m - 1).toNat := by omega
        rwa [hcn]
  · have hp : List.Pairwise (· < ·) (List.range b.config.cols) :=
      List.pairwise_lt_range b.config.cols
    have hf := List.Pairwise.filter (R := (· < ·))
      (fun c : Nat => b.is_valid_move ((c : Int) + 1)) hp
    refine hf.map (fun c : Nat => (c : Int) + 1) (fun a a' haa => ?_)
    show (a : Int) + 1 < (a' : Int) + 1
    omega

/-- C9 witness: the membership clause evaluated at the fresh default board
and column 3. -/
theorem get_valid_moves_spec_witness :
    (3 : Int) ∈ boardStd.get_valid_moves ↔
      1 ≤ (3 : Int) ∧ (3 : Int) ≤ (boardStd.config.cols : Int) ∧
        getCell boardStd.board 0 ((3 : Int) - 1).toNat = Player.EMPTY :=
  (get_valid_moves_spec boardStd).1 3

instance (b : GameBoard) : Decidable (wellFormed b) := by
  unfold wellFormed; infer_instance

theorem make_move_success_inv (b : GameBoard) (col : Int) (p : Player)
    (h : (b.make_move col p).1 = MoveResult.SUCCESS) :
    1 ≤ col ∧ col ≤ (b.config.cols : Int) ∧
      ∃ row, scanColumn b.board (col - 1).toNat b.config.rows = some row ∧
        b.make_move col p = (MoveResult.SUCCESS, mkSuccessBoard b col p row) := by
  by_cases hr : 1 ≤ col ∧ col ≤ (b.config.cols : Int)
  · rcases make_move_cases b col p hr.1 hr.2 with ⟨_, heq⟩ | ⟨_, hin⟩
    · rw [heq] at h
      simp at h
    · rcases hin with ⟨_, heq⟩ | ⟨row, hsome, heq⟩
      · rw [heq] at h
        simp at h
      · exact ⟨hr.1, hr.2, row, hsome, heq⟩
  · rw [make_move_invalid b col p (by omega)] at h
    simp at h

/-- Under the gravity invariant, any empty cell in a column forces the top
cell of that column to be empty. -/
theorem gravity_top_empty (b : GameBoard) (hg : gravityOK b) (ci : Nat)
    (hci : ci < b.config.cols) (r : Nat) (hr : r < b.config.rows)
    (he : getCell b.board r ci = Player.EMPTY) :
    getCell b.board 0 ci = Player.EMPTY := by
  induction r with
  | zero => exact he
  | succ k ih => exact ih (by omega) (hg ci hci k (by omega) he)

/-- C1: `make_move` returns `INVALID_COLUMN` for a column outside `[1, cols]`;
for an in-range column of a gravity-respecting board it fills the lowest
(largest row index) empty cell, appends exactly that `(position, player)`
entry at the end of the history and returns `SUCCESS` when the column has an
empty cell, and returns `COLUMN_FULL` (leaving the board unchanged)
otherwise. -/
theorem make_move_spec (b : GameBoard) (col : Int) (p : Player)
    (hg : gravityOK b) :
    (col < 1 ∨ (b.config.cols : Int) < col →
        b.make_move col p = (MoveResult.INVALID_COLUMN, b)) ∧
    (1 ≤ col → col ≤ (b.config.cols : Int) → colHasEmpty b (col - 1).toNat →
        ∃ r, lowestEmptyRow b (col - 1).toNat r ∧
          b.make_move col p = (MoveResult.SUCCESS, mkSuccessBoard b col p r)) ∧
    (1 ≤ col → col ≤ (b.config.cols : Int) → ¬ colHasEmpty b (col - 1).toNat →
        b.make_move col p = (MoveResult.COLUMN_FULL, b)) := by
  refine ⟨fun h => make_move_invalid b col p h, ?_, ?_⟩
  · intro h1 h2 hce
    obtain ⟨r0, hr0, he0⟩ := hce
    have htop : getCell b.board 0 (col - 1).toNat = Player.EMPTY :=
      gravity_top_empty b hg _ (by omega) r0 hr0 he0
    rcases make_move_cases b col p h1 h2 with ⟨hne, _⟩ | ⟨_, hin⟩
    · exact absurd htop hne
    · rcases hin with ⟨hnone, _⟩ | ⟨row, hsome, heq⟩
      · exact absurd he0 ((scanColumn_none_iff _ _ _).mp hnone r0 hr0)
      · obtain ⟨hlt, hemp, habove⟩ := scanColumn_some _ _ _ _ hsome
        exact ⟨row, ⟨hlt, hemp, fun r' hgt hub => habove r' hgt hub⟩, heq⟩
  · intro h1 h2 hce
    have hall : ∀ r < b.config.rows, getCell b.board r (col - 1).toNat ≠ Player.EMPTY := by
      intro r hr he
      exact hce ⟨r, hr, he⟩
    rcases make_move_cases b col p h1 h2 with ⟨_, heq⟩ | ⟨_, hin⟩
    · exact heq
    · rcases hin with ⟨_, heq⟩ | ⟨row, hsome, _⟩
      · exact heq
      · obtain ⟨hlt, hemp, _⟩ := scanColumn_some _ _ _ _ hsome
        exact absurd hemp (hall row hlt)

/-- C1 witness: a concrete successful placement on the fresh default board. -/
theorem make_move_spec_witness :
    gravityOK boardStd ∧
    (∃ r, lowestEmptyRow boardStd 2 r ∧
        boardStd.make_move 3 Player.RED =
          (MoveResult.SUCCESS, mkSuccessBoard boardStd 3 Player.RED r)) :=
  ⟨by decide,
   (make_move_spec boardStd 3 Player.RED (by decide)).2.1
     (by decide) (by decide) (by decide)⟩

/-! ## Fresh board and check_winner lemmas -/

theorem getD_replicate_eq {α : Type} (n : Nat) (a : α) (i : Nat) (d : α) :
    (List.replicate n a).getD i d = if i < n then a else d := by
  induction n generalizing i with
  | zero => simp
  | succ k ih =>
    cases i with
    | zero => simp [List.replicate]
    | succ j =>
      rw [show (List.replicate (k + 1) a).getD (j + 1) d = (List.replicate k a).getD j d
        from rfl, ih]
      simp [Nat.succ_lt_succ_iff]

theorem getCell_new (n m r c : Nat) :
    getCell (List.replicate n (List.replicate m Player.EMPTY)) r c = Player.EMPTY := by
  unfold getCell
  rw [getD_replicate_eq]
  by_cases h : r < n
  · rw [if_pos h, getD_replicate_eq]
    split <;> rfl
  · rw [if_neg h]
    rfl

theorem checkDirsAux_ne_empty (b : GameBoard) (pos : Position)
    (ds : List Direction) (w : Player) (h : checkDirsAux b pos ds = some w) :
    w ≠ Player.EMPTY := by
  induction ds with
  | nil => simp [checkDirsAux] at h
  | cons d ds ih =>
    simp only [checkDirsAux] at h
    revert h
    cases hc : b.check_line pos d with
    | none => exact ih
    | some w' =>
      by_cases hw : w' = Player.EMPTY
      · simp only [hw, ne_eq, not_true_eq_false, if_false]
        exact ih
      · simp only [ne_eq, hw, not_false_eq_true, if_true, Option.some.injEq]
        intro h
        subst h
        exact hw

theorem findWinnerInCells_ne_empty (b : GameBoard) (l : List (Nat × Nat))
    (w : Player) (h : findWinnerInCells b l = some w) : w ≠ Player.EMPTY := by
  induction l with
  | nil => simp [findWinnerInCells] at h
  | cons rc rest ih =>
    obtain ⟨r, c⟩ := rc
    simp only [findWinnerInCells] at h
    revert h
    by_cases hocc : cellAtPos b.board { row := (r : Int), col := (c : Int) } ≠ Player.EMPTY
    · rw [if_pos hocc]
      cases hd : b.check_all_directions_from_position { row := (r : Int), col := (c : Int) } with
      | none => exact ih
      | some w' =>
        intro h
        have hww : w' = w := by simpa using h
        rw [← hww]
        exact checkDirsAux_ne_empty b _ _ w' hd
    · rw [if_neg hocc]
      exact ih

theorem find_winner_ne_empty (b : GameBoard) (w : Player)
    (h : b.find_winner_on_board = some w) : w ≠ Player.EMPTY :=
  findWinnerInCells_ne_empty b _ w h

theorem findWinnerInCells_none_of_empty (b : GameBoard) (l : List (Nat × Nat))
    (hall : ∀ rc ∈ l, getCell b.board rc.1 rc.2 = Player.EMPTY) :
    findWinnerInCells b l = none := by
  induction l with
  | nil => rfl
  | cons rc rest ih =>
    obtain ⟨r, c⟩ := rc
    simp only [findWinnerInCells]
    have he : cellAtPos b.board { row := (r : Int), col := (c : Int) } = Player.EMPTY := by
      unfold cellAtPos
      simpa using hall (r, c) (List.mem_cons_self _ _)
    rw [if_neg (by simpa using he)]
    exact ih (fun rc hrc => hall rc (List.mem_cons_of_mem _ hrc))

theorem find_winner_new (cfg : GameConfig) :
    (GameBoard.new cfg).find_winner_on_board = none := by
  apply findWinnerInCells_none_of_empty
  intro rc _
  exact getCell_new _ _ _ _

theorem is_full_new (cfg : GameConfig) (h : 0 < cfg.cols) :
    (GameBoard.new cfg).is_full = false := by
  rw [Bool.eq_false_iff]
  intro hall
  unfold GameBoard.is_full at hall
  rw [List.all_eq_true] at hall
  have h0 := hall 0 (List.mem_range.mpr h)
  rw [bne_iff_ne] at h0
  exact h0 (getCell_new _ _ _ _)

/-- C5: `check_winner` returns the winner's state when the detector yields a
player (always a real player), `DRAW` when no winner and the top row is
full, `PLAYING` otherwise; and a freshly constructed board of any valid
configuration is all-empty with `check_winner = PLAYING`. -/
theorem check_winner_spec (b : GameBoard) (cfg : GameConfig) (hv : cfg.valid) :
    (∀ p, b.find_winner_on_board = some p →
        (p = Player.RED ∨ p = Player.YELLOW) ∧
          b.check_winner = player_to_game_state p) ∧
    (b.find_winner_on_board = none → b.is_full = true →
        b.check_winner = GameState.DRAW) ∧
    (b.find_winner_on_board = none → b.is_full = false →
        b.check_winner = GameState.PLAYING) ∧
    ((∀ r < cfg.rows, ∀ c < cfg.cols,
        getCell (GameBoard.new cfg).board r c = Player.EMPTY) ∧
      (GameBoard.new cfg).check_winner = GameState.PLAYING) := by
  refine ⟨?_, ?_, ?_, ?_, ?_⟩
  · intro p hp
    refine ⟨?_, ?_⟩
    · have := find_winner_ne_empty b p hp
      cases p
      · exact Or.inl rfl
      · exact Or.inr rfl
      · exact absurd rfl this
    · unfold GameBoard.check_winner
      rw [hp]
  · intro hn hf
    unfold GameBoard.check_winner
    rw [hn, hf]
    rfl
  · intro hn hf
    unfold GameBoard.check_winner
    rw [hn, hf]
    rfl
  · intro r _ c _
    exact getCell_new _ _ _ _
  · unfold GameBoard.check_winner
    rw [find_winner_new cfg, is_full_new cfg (by obtain ⟨_, _, h, _⟩ := hv; omega)]
    rfl

/-- C5 witness: instantiated at the fresh default board and the default
configuration. -/
theorem check_winner_spec_witness :
    cfgStd.valid ∧
    (boardStd.find_winner_on_board = none → boardStd.is_full = false →
      boardStd.check_winner = GameState.PLAYING) :=
  ⟨by decide, (check_winner_spec boardStd cfgStd (by decide)).2.2.1⟩

/-- A successful `make_move` followed by `undo_last_move` returns `true` and
restores exactly the pre-placement board. -/
theorem undo_restores (b : GameBoard) (col : Int) (p : Player)
    (hwf : wellFormed b) (hs : (b.make_move col p).1 = MoveResult.SUCCESS) :
    ((b.make_move col p).2).undo_last_move = (true, b) := by
  obtain ⟨h1, h2, row, hsome, heq⟩ := make_move_success_inv b col p hs
  obtain ⟨hrow_lt, hemp, _⟩ := scanColumn_some _ _ _ _ hsome
  have hlen : row < b.board.length := by rw [hwf.1]; exact hrow_lt
  have hclen : (col - 1).toNat < (b.board.getD row []).length := by
    have hmem : b.board.getD row [] ∈ b.board := by
      rw [List.getD_eq_getElem?_getD, List.getElem?_eq_getElem hlen, Option.getD_some]
      exact List.getElem_mem hlen
    rw [hwf.2 _ hmem]
    omega
  rw [heq]
  unfold GameBoard.undo_last_move mkSuccessBoard
  simp only [List.getLast?_concat, List.dropLast_concat]
  have hb : setCell (setCell b.board row (col - 1).toNat p)
      ((row : Int)).toNat ((col - 1)).toNat Player.EMPTY = b.board := by
    rw [Int.toNat_natCast, setCell_setCell _ _ _ _ _ hlen, ← hemp,
      setCell_cancel _ _ _ hlen hclen]
  rw [hb]

/-- C4: on any well-formed board, a successful `make_move` followed
immediately by `undo_last_move` returns `true` and restores exactly the
pre-placement board: the grid cell for cell and the history entry for
entry. -/
theorem place_undo_inverse (b : GameBoard) (col : Int) (p : Player)
    (hwf : wellFormed b) (hs : (b.make_move col p).1 = MoveResult.SUCCESS) :
    ((b.make_move col p).2).undo_last_move = (true, b) :=
  undo_restores b col p hwf hs

/-- C4 witness: placing in column 3 of the fresh default board and undoing
restores it. -/
theorem place_undo_inverse_witness :
    wellFormed boardStd ∧
    ((boardStd.make_move 3 Player.RED).2).undo_last_move = (true, boardStd) :=
  ⟨by decide, place_undo_inverse boardStd 3 Player.RED (by decide) (by decide)⟩

/-! ## Win detector lemmas -/

theorem move_by_direction_zero (pos : Position) (d : Direction) :
    pos.move_by_direction d 0 = pos := by
  unfold Position.move_by_direction
  cases pos
  simp

theorem move_by_direction_add (pos : Position) (d : Direction) (s t : Int) :
    (pos.move_by_direction d s).move_by_direction d t =
      pos.move_by_direction d (s + t) := by
  unfold Position.move_by_direction
  rw [Position.mk.injEq]
  constructor <;> ring

theorem is_valid_iff (p : Position) (rows cols : Nat) :
    p.is_valid rows cols = true ↔
      0 ≤ p.row ∧ p.row < (rows : Int) ∧ 0 ≤ p.col ∧ p.col < (cols : Int) := by
  unfold Position.is_valid
  simp only [Bool.and_eq_true, decide_eq_true_eq]
  tauto

/-- Every cell counted by the `_check_line` while loop is a valid position
holding the scanned player's mark. -/
theorem countDir_run (b : GameBoard) (player : Player) (d : Direction) (mult : Int) :
    ∀ (fuel : Nat) (pos : Position) (i : Nat), i < countDir b player pos d mult fuel →
      (pos.move_by_direction d (mult * (i : Int))).is_valid
          b.config.rows b.config.cols = true ∧
      cellAtPos b.board (pos.move_by_direction d (mult * (i : Int))) = player := by
  intro fuel
  induction fuel with
  | zero =>
    intro pos i hi
    simp [countDir] at hi
  | succ f ih =>
    intro pos i hi
    simp only [countDir] at hi
    cases hcond : (pos.is_valid b.config.rows b.config.cols &&
        (cellAtPos b.board pos == player)) with
    | false =>
      rw [hcond] at hi
      simp at hi
    | true =>
      rw [hcond] at hi
      simp only [if_true] at hi
      obtain ⟨hval, hcell⟩ := Bool.and_eq_true_iff.mp hcond
      cases i with
      | zero =>
        rw [Nat.cast_zero, mul_zero, move_by_direction_zero]
        exact ⟨hval, beq_iff_eq.mp hcell⟩
      | succ j =>
        have hj : j < countDir b player (pos.move_by_direction d mult) d mult f := by
          omega
        have hstep := ih (pos.move_by_direction d mult) j hj
        rw [move_by_direction_add] at hstep
        have harith : mult + mult * (j : Int) = mult * ((j : Nat) + 1 : Int) := by ring
        rw [harith] at hstep
        have hcast : (((j + 1 : Nat)) : Int) = ((j : Nat) : Int) + 1 := by push_cast; ring
        rw [hcast]
        exact hstep

/-- If `k` consecutive cells from `pos` (stepping by `direction * mult`) are
valid and hold the scanned player, the `_check_line` while loop counts at
least `k`, provided the fuel is at least `k`. -/
theorem countDir_ge (b : GameBoard) (player : Player) (d : Direction) (mult : Int) :
    ∀ (fuel : Nat) (pos : Position) (k : Nat),
      (∀ i < k, (pos.move_by_direction d (mult * (i : Int))).is_valid
            b.config.rows b.config.cols = true ∧
          cellAtPos b.board (pos.move_by_direction d (mult * (i : Int))) = player) →
      k ≤ fuel → k ≤ countDir b player pos d mult fuel := by
  intro fuel
  induction fuel with
  | zero =>
    intro pos k _ hk
    simp [countDir]
    omega
  | succ f ih =>
    intro pos k hall hk
    cases k with
    | zero => exact Nat.zero_le _
    | succ j =>
      have h0 := hall 0 (by omega)
      rw [Nat.cast_zero, mul_zero, move_by_direction_zero] at h0
      simp only [countDir]
      have hcond : (pos.is_valid b.config.rows b.config.cols &&
          (cellAtPos b.board pos == player)) = true :=
        Bool.and_eq_true_iff.mpr ⟨h0.1, beq_iff_eq.mpr h0.2⟩
      rw [hcond, if_pos rfl]
      have hrec : j ≤ countDir b player (pos.move_by_direction d mult) d mult f := by
        apply ih _ j _ (by omega)
        intro i hi
        have hstep := hall (i + 1) (by omega)
        rw [move_by_direction_add]
        have hcast : (((i + 1 : Nat)) : Int) = ((i : Nat) : Int) + 1 := by push_cast; ring
        rw [hcast] at hstep
        have harith : mult + mult * (i : Int) = mult * (((i : Nat) : Int) + 1) := by ring
        rw [harith]
        exact hstep
      omega

/-- A winner reported by `_check_line` from a valid start position owns an
actual run of `win_length` consecutive cells along the checked axis. -/
theorem check_line_some_run (b : GameBoard) (pos : Position) (d : Direction)
    (w : Player) (hpos : pos.is_valid b.config.rows b.config.cols = true)
    (h : b.check_line pos d = some w) : hasWinRun b w := by
  unfold GameBoard.check_line at h
  by_cases hemp : cellAtPos b.board pos = Player.EMPTY
  · rw [if_pos hemp] at h
    exact absurd h (by simp)
  · rw [if_neg hemp] at h
    set fuel := b.config.rows + b.config.cols with hfuel
    set cntP := countDir b (cellAtPos b.board pos)
      (pos.move_by_direction d 1) d 1 fuel with hcntP
    set cntN := countDir b (cellAtPos b.board pos)
      (pos.move_by_direction d (-1)) d (-1) fuel with hcntN
    by_cases hcnt : b.config.win_length ≤ 1 + cntP + cntN
    · rw [if_pos hcnt] at h
      have hw : cellAtPos b.board pos = w := by simpa using h
      subst hw
      refine ⟨hemp, pos.move_by_direction d (-(cntN : Int)), d, ?_⟩
      intro i hi
      rw [move_by_direction_add]
      rcases Nat.lt_trichotomy i cntN with hlt | heqi | hgt
      · have hstep := countDir_run b (cellAtPos b.board pos) d (-1) fuel
          (pos.move_by_direction d (-1)) (cntN - i - 1) (by omega)
        rw [move_by_direction_add] at hstep
        have harith : (-1 : Int) + (-1) * ((cntN - i - 1 : Nat) : Int) =
            -(cntN : Int) + (i : Int) := by omega
        rwa [harith] at hstep
      · have harith : -(cntN : Int) + (i : Int) = 0 := by omega
        rw [harith, move_by_direction_zero]
        exact ⟨hpos, rfl⟩
      · have hstep := countDir_run b (cellAtPos b.board pos) d 1 fuel
          (pos.move_by_direction d 1) (i - cntN - 1) (by omega)
        rw [move_by_direction_add] at hstep
        have harith : (1 : Int) + 1 * ((i - cntN - 1 : Nat) : Int) =
            -(cntN : Int) + (i : Int) := by omega
        rwa [harith] at hstep
    · rw [if_neg hcnt] at h
      exact absurd h (by simp)

/-- A run of `win_length` cells for a real player, read from its start
position along a direction, makes `_check_line` at that start report the
player. -/
theorem check_line_of_run (b : GameBoard) (pos : Position) (d : Direction)
    (p : Player) (hL : 0 < b.config.win_length) (hne : p ≠ Player.EMPTY)
    (hrun : ∀ i < b.config.win_length,
      (pos.move_by_direction d (i : Int)).is_valid b.config.rows b.config.cols = true ∧
      cellAtPos b.board (pos.move_by_direction d (i : Int)) = p) :
    b.check_line pos d = some p := by
  have h0 := hrun 0 hL
  rw [Nat.cast_zero, move_by_direction_zero] at h0
  unfold GameBoard.check_line
  rw [h0.2, if_neg hne]
  have hfuel : b.config.win_length - 1 ≤ b.config.rows + b.config.cols := by
    have hlast := (hrun (b.config.win_length - 1) (by omega)).1
    rw [is_valid_iff] at hlast
    have h0v := (is_valid_iff _ _ _).mp h0.1
    unfold Position.move_by_direction at hlast
    cases d <;> simp only [Direction.delta_row, Direction.delta_col] at hlast <;> omega
  have hcntP : b.config.win_length - 1 ≤
      countDir b p (pos.move_by_direction d 1) d 1
        (b.config.rows + b.config.cols) := by
    apply countDir_ge b p d 1 _ _ _ _ hfuel
    intro i hi
    have hstep := hrun (i + 1) (by omega)
    have hcast : (((i + 1 : Nat)) : Int) = ((i : Nat) : Int) + 1 := by push_cast; ring
    rw [hcast] at hstep
    rw [move_by_direction_add]
    have harith : (1 : Int) + 1 * ((i : Nat) : Int) = ((i : Nat) : Int) + 1 := by ring
    rwa [harith]
  rw [if_pos (by omega)]

theorem checkDirsAux_some_inv (b : GameBoard) (pos : Position)
    (ds : List Direction) (w : Player) (h : checkDirsAux b pos ds = some w) :
    ∃ d ∈ ds, b.check_line pos d = some w := by
  induction ds with
  | nil => simp [checkDirsAux] at h
  | cons d ds ih =>
    simp only [checkDirsAux] at h
    revert h
    cases hc : b.check_line pos d with
    | none =>
      intro h
      obtain ⟨d', hd', hl⟩ := ih h
      exact ⟨d', List.mem_cons_of_mem _ hd', hl⟩
    | some w' =>
      by_cases hw : w' = Player.EMPTY
      · simp only [hw, ne_eq, not_true_eq_false, if_false]
        intro h
        obtain ⟨d', hd', hl⟩ := ih h
        exact ⟨d', List.mem_cons_of_mem _ hd', hl⟩
      · simp only [ne_eq, hw, not_false_eq_true, if_true, Option.some.injEq]
        intro h
        subst h
        exact ⟨d, List.mem_cons_self _ _, hc⟩

theorem checkDirsAux_none_inv (b : GameBoard) (pos : Position)
    (ds : List Direction) (h : checkDirsAux b pos ds = none)
    (d : Direction) (hd : d ∈ ds) (w : Player)
    (hw : b.check_line pos d = some w) : w = Player.EMPTY := by
  induction ds with
  | nil => simp at hd
  | cons d0 ds ih =>
    simp only [checkDirsAux] at h
    revert h
    cases hc : b.check_line pos d0 with
    | none =>
      intro h
      rcases List.mem_cons.mp hd with rfl | hmem
      · rw [hc] at hw
        simp at hw
      · exact ih h hmem
    | some w' =>
      by_cases hwe : w' = Player.EMPTY
      · simp only [hwe, ne_eq, not_true_eq_false, if_false]
        intro h
        rcases List.mem_cons.mp hd with rfl | hmem
        · rw [hc] at hw
          subst hwe
          simpa using hw.symm
        · exact ih h hmem
      · simp only [ne_eq, hwe, not_false_eq_true, if_true]
        intro h
        simp at h

theorem findWinnerInCells_some_inv (b : GameBoard) (l : List (Nat × Nat))
    (w : Player) (h : findWinnerInCells b l = some w) :
    ∃ rc ∈ l,
      cellAtPos b.board { row := ((rc.1 : Nat) : Int), col := ((rc.2 : Nat) : Int) } ≠
        Player.EMPTY ∧
      b.check_all_directions_from_position
          { row := ((rc.1 : Nat) : Int), col := ((rc.2 : Nat) : Int) } = some w := by
  induction l with
  | nil => simp [findWinnerInCells] at h
  | cons rc rest ih =>
    obtain ⟨r, c⟩ := rc
    simp only [findWinnerInCells] at h
    revert h
    by_cases hocc : cellAtPos b.board { row := (r : Int), col := (c : Int) } ≠ Player.EMPTY
    · rw [if_pos hocc]
      cases hd : b.check_all_directions_from_position
          { row := (r : Int), col := (c : Int) } with
      | none =>
        intro h
        obtain ⟨rc', hmem, hres⟩ := ih h
        exact ⟨rc', List.mem_cons_of_mem _ hmem, hres⟩
      | some w' =>
        intro h
        have hww : w' = w := by simpa using h
        subst hww
        exact ⟨(r, c), List.mem_cons_self _ _, hocc, hd⟩
    · rw [if_neg hocc]
      intro h
      obtain ⟨rc', hmem, hres⟩ := ih h
      exact ⟨rc', List.mem_cons_of_mem _ hmem, hres⟩

theorem findWinnerInCells_none_inv (b : GameBoard) (l : List (Nat × Nat))
    (h : findWinnerInCells b l = none) (rc : Nat × Nat) (hmem : rc ∈ l)
    (hocc : cellAtPos b.board
        { row := ((rc.1 : Nat) : Int), col := ((rc.2 : Nat) : Int) } ≠ Player.EMPTY) :
    b.check_all_directions_from_position
        { row := ((rc.1 : Nat) : Int), col := ((rc.2 : Nat) : Int) } = none := by
  induction l with
  | nil => simp at hmem
  | cons rc0 rest ih =>
    obtain ⟨r, c⟩ := rc0
    simp only [findWinnerInCells] at h
    revert h
    by_cases hocc0 : cellAtPos b.board { row := (r : Int), col := (c : Int) } ≠ Player.EMPTY
    · rw [if_pos hocc0]
      cases hd : b.check_all_directions_from_position
          { row := (r : Int), col := (c : Int) } with
      | none =>
        intro h
        rcases List.mem_cons.mp hmem with rfl | hmem'
        · exact hd
        · exact ih h hmem'
      | some w' =>
        intro h
        simp at h
    · rw [if_neg hocc0]
      intro h
      rcases List.mem_cons.mp hmem with rfl | hmem'
      · exact absurd hocc hocc0
      · exact ih h hmem'

theorem mem_allCells (rows cols r c : Nat) :
    (r, c) ∈ allCells rows cols ↔ r < rows ∧ c < cols := by
  unfold allCells
  simp only [List.mem_flatMap, List.mem_map, List.mem_range, Prod.mk.injEq]
  constructor
  · rintro ⟨a, ha, b, hb, rfl, rfl⟩
    exact ⟨ha, hb⟩
  · rintro ⟨hr, hc⟩
    exact ⟨r, hr, c, hc, rfl, rfl⟩

theorem mem_direction_all (d : Direction) : d ∈ Direction.all := by
  cases d <;> simp [Direction.all]

/-- A 6x7 board with PlayerA (RED) occupying the bottom row of columns
1,2,3,4. -/
def boardBottomRow4 : GameBoard :=
  { config := cfgStd
    board :=
      [[Player.EMPTY, Player.EMPTY, Player.EMPTY, Player.EMPTY,
        Player.EMPTY, Player.EMPTY, Player.EMPTY],
       [Player.EMPTY, Player.EMPTY, Player.EMPTY, Player.EMPTY,
        Player.EMPTY, Player.EMPTY, Player.EMPTY],
       [Player.EMPTY, Player.EMPTY, Player.EMPTY, Player.EMPTY,
        Player.EMPTY, Player.EMPTY, Player.EMPTY],
       [Player.EMPTY, Player.EMPTY, Player.EMPTY, Player.EMPTY,
        Player.EMPTY, Player.EMPTY, Player.EMPTY],
       [Player.EMPTY, Player.EMPTY, Player.EMPTY, Player.EMPTY,
        Player.EMPTY, Player.EMPTY, Player.EMPTY],
       [Player.RED, Player.RED, Player.RED, Player.RED,
        Player.EMPTY, Player.EMPTY, Player.EMPTY]]
    move_history := [] }

/-- Any player the full-board scan reports owns an actual winning run. -/
theorem find_winner_hasWinRun (b : GameBoard) (p : Player)
    (hp : b.find_winner_on_board = some p) : hasWinRun b p := by
  obtain ⟨⟨r, c⟩, hmem, hocc, hdirs⟩ := findWinnerInCells_some_inv b _ p hp
  obtain ⟨d, _, hline⟩ := checkDirsAux_some_inv b _ _ p hdirs
  obtain ⟨hr, hc⟩ := (mem_allCells _ _ r c).mp hmem
  refine check_line_some_run b _ d p ?_ hline
  rw [is_valid_iff]
  dsimp only
  refine ⟨Int.natCast_nonneg r, ?_, Int.natCast_nonneg c, ?_⟩ <;> omega

/-- If some real player owns a winning run, the full-board scan reports a
winner. -/
theorem find_winner_of_run (b : GameBoard) (p : Player)
    (hL : 0 < b.config.win_length) (hrun : hasWinRun b p) :
    b.find_winner_on_board ≠ none := by
  obtain ⟨hne, pos, d, hrun⟩ := hrun
  intro hfw
  have hline := check_line_of_run b pos d p hL hne hrun
  have h0 := hrun 0 hL
  rw [Nat.cast_zero, move_by_direction_zero] at h0
  obtain ⟨hr0, hrlt, hc0, hclt⟩ := (is_valid_iff _ _ _).mp h0.1
  have hposeq :
      ({ row := ((pos.row.toNat : Nat) : Int), col := ((pos.col.toNat : Nat) : Int) } :
        Position) = pos := by
    obtain ⟨pr, pc⟩ := pos
    rw [Position.mk.injEq]
    constructor <;> simp_all
  have hmem : (pos.row.toNat, pos.col.toNat) ∈
      allCells b.config.rows b.config.cols :=
    (mem_allCells _ _ _ _).mpr ⟨by omega, by omega⟩
  have hocc : cellAtPos b.board
      { row := ((pos.row.toNat : Nat) : Int), col := ((pos.col.toNat : Nat) : Int) } ≠
        Player.EMPTY := by
    rw [hposeq, h0.2]
    exact hne
  have hdnone := findWinnerInCells_none_inv b _ hfw (pos.row.toNat, pos.col.toNat)
    hmem hocc
  rw [hposeq] at hdnone
  exact hne (checkDirsAux_none_inv b pos Direction.all hdnone d
    (mem_direction_all d) p hline)

/-- C2: the full-board scan reports a winner iff some real player owns a
straight run of `win_length` consecutive cells along one of the four
direction axes, any reported player owns such a run, and the concrete
bottom-row example is reported as a RED (PlayerA) win. -/
theorem win_detector_spec (b : GameBoard) (hv : b.config.valid) :
    ((∃ p, b.find_winner_on_board = some p) ↔ (∃ p, hasWinRun b p)) ∧
    (∀ p, b.find_winner_on_board = some p → hasWinRun b p) ∧
    boardBottomRow4.find_winner_on_board = some Player.RED ∧
    boardBottomRow4.check_winner = GameState.RED_WINS := by
  refine ⟨⟨fun ⟨p, hp⟩ => ⟨p, find_winner_hasWinRun b p hp⟩, ?_⟩,
    fun p hp => find_winner_hasWinRun b p hp, by decide, by decide⟩
  rintro ⟨p, hrun⟩
  have hL : 0 < b.config.win_length := by
    obtain ⟨_, _, _, _, h5, _⟩ := hv
    omega
  cases hfw : b.find_winner_on_board with
  | some q => exact ⟨q, rfl⟩
  | none => exact absurd hfw (find_winner_of_run b p hL hrun)

/-- C2 witness: the concrete bottom-row board yields an actual RED run via
the theorem's forward clause. -/
theorem win_detector_spec_witness :
    boardBottomRow4.config.valid ∧ hasWinRun boardBottomRow4 Player.RED :=
  ⟨by decide,
   (win_detector_spec boardBottomRow4 (by decide)).2.1 Player.RED (by decide)⟩

/-! ## Center-preference (heuristic fallback) lemmas -/

theorem insertByKey_head (key : Int → Int) (x : Int) (s : List Int) (m : Int)
    (hm : s.head? = some m) :
    (insertByKey key x s).head? = some (if key x ≤ key m then x else m) := by
  cases s with
  | nil => simp at hm
  | cons a as =>
    obtain rfl : m = a := by simpa using hm.symm
    unfold insertByKey
    by_cases h : key x ≤ key m
    · rw [if_pos h, if_pos h]
      rfl
    · rw [if_neg h, if_neg h]
      rfl

/-- The head of the stable key-sort of a strictly ascending list is the
lowest-numbered element of minimal key. -/
theorem sortByKey_head_spec (key : Int → Int) (l : List Int)
    (hs : List.Pairwise (· < ·) l) (hne : l ≠ []) :
    ∃ m, (sortByKey key l).head? = some m ∧ m ∈ l ∧
      (∀ x ∈ l, key m ≤ key x) ∧ (∀ x ∈ l, key x = key m → m ≤ x) := by
  induction l with
  | nil => exact absurd rfl hne
  | cons x xs ih =>
    rw [List.pairwise_cons] at hs
    cases xs with
    | nil =>
      refine ⟨x, rfl, List.mem_singleton_self x, ?_, ?_⟩
      · intro z hz
        obtain rfl : z = x := by simpa using hz
        exact le_refl _
      · intro z hz _
        obtain rfl : z = x := by simpa using hz
        exact le_refl _
    | cons y ys =>
      obtain ⟨m', hhead, hmem, hmin, htie⟩ := ih hs.2 (by simp)
      have hlt : ∀ z ∈ y :: ys, x < z := hs.1
      have hsort : sortByKey key (x :: y :: ys) =
          insertByKey key x (sortByKey key (y :: ys)) := rfl
      rw [hsort, insertByKey_head key x _ m' hhead]
      by_cases hk : key x ≤ key m'
      · rw [if_pos hk]
        refine ⟨x, rfl, List.mem_cons_self _ _, ?_, ?_⟩
        · intro z hz
          rcases List.mem_cons.mp hz with rfl | hz'
          · exact le_refl _
          · exact le_trans hk (hmin z hz')
        · intro z hz _
          rcases List.mem_cons.mp hz with rfl | hz'
          · exact le_refl _
          · exact le_of_lt (hlt z hz')
      · rw [if_neg hk]
        push_neg at hk
        refine ⟨m', rfl, List.mem_cons_of_mem _ hmem, ?_, ?_⟩
        · intro z hz
          rcases List.mem_cons.mp hz with rfl | hz'
          · exact le_of_lt hk
          · exact hmin z hz'
        · intro z hz hkey
          rcases List.mem_cons.mp hz with rfl | hz'
          · exact absurd hkey (by omega)
          · exact htie z hz' hkey

/-- C8 counterexample: on the ascending valid-column list `[2, 4, 5]` the
fallback returns column 2, although column 4 is strictly closer to the
midpoint 3.5 of the valid-column range (min 2, max 5): the code centers on
the floor `(2 + 5) // 2 = 3`, not on the midpoint. -/
theorem prefer_center_columns_counterexample :
    prefer_center_columns [2, 4, 5] = some 2 ∧
    listMin [2, 4, 5] = 2 ∧ listMax [2, 4, 5] = 5 ∧
    (4 : Int) ∈ [2, 4, 5] ∧
    |(2 * 4 - (2 + 5) : Int)| < |(2 * 2 - (2 + 5) : Int)| := by decide

/-- C8 (amended): on every non-empty strictly ascending list of columns the
fallback returns the column closest to the floored midpoint
`(max + min) // 2`, breaking ties toward the lower column number. -/
theorem prefer_center_columns_spec (l : List Int)
    (hs : List.Pairwise (· < ·) l) (hne : l ≠ []) :
    ∃ m, prefer_center_columns l = some m ∧ m ∈ l ∧
      (∀ x ∈ l, |m - Int.fdiv (listMax l + listMin l) 2| ≤
          |x - Int.fdiv (listMax l + listMin l) 2|) ∧
      (∀ x ∈ l, |x - Int.fdiv (listMax l + listMin l) 2| =
          |m - Int.fdiv (listMax l + listMin l) 2| → m ≤ x) := by
  unfold prefer_center_columns
  rw [if_neg hne]
  exact sortByKey_head_spec (fun x => |x - Int.fdiv (listMax l + listMin l) 2|) l hs hne

/-- C8 witness: the amended statement evaluated on the full fresh-board
column list. -/
theorem prefer_center_columns_spec_witness :
    ∃ m, prefer_center_columns [1, 2, 3, 4, 5, 6, 7] = some m ∧
      m ∈ [(1 : Int), 2, 3, 4, 5, 6, 7] ∧
      (∀ x ∈ [(1 : Int), 2, 3, 4, 5, 6, 7], |m - 4| ≤ |x - 4|) ∧
      (∀ x ∈ [(1 : Int), 2, 3, 4, 5, 6, 7], |x - 4| = |m - 4| → m ≤ x) := by
  have h := prefer_center_columns_spec [1, 2, 3, 4, 5, 6, 7] (by decide) (by decide)
  have hc : Int.fdiv (listMax [1, 2, 3, 4, 5, 6, 7] + listMin [1, 2, 3, 4, 5, 6, 7]) 2 =
      4 := by decide
  rwa [hc] at h

/-! ## Reachability invariant (gravity) -/

/-- The rows recorded in the move history for 0-based column `c`, in history
order. -/
def colHistRows (b : GameBoard) (c : Nat) : List Int :=
  (b.move_history.filter (fun e => e.1.col == (c : Int))).map (fun e => e.1.row)

/-- The descending row sequence `[rows-1, rows-2, ..., rows-h]` a column of
height `h` must have been filled in. -/
def descRows (rows h : Nat) : List Int :=
  (List.range h).map (fun i => ((rows - 1 - i : Nat) : Int))

/-- Column `c` has height `h`: its occupied cells are exactly the bottom `h`
rows, and its history entries record exactly the rows `rows-1 .. rows-h` in
placement order. -/
def colState (b : GameBoard) (c : Nat) (h : Nat) : Prop :=
  h ≤ b.config.rows ∧
  (∀ r < b.config.rows,
    (getCell b.board r c ≠ Player.EMPTY ↔ b.config.rows - h ≤ r)) ∧
  colHistRows b c = descRows b.config.rows h

/-- The inductive invariant maintained by `make_move`, `undo_last_move` and
`reset`. -/
def Inv (b : GameBoard) : Prop :=
  wellFormed b ∧
  (∀ e ∈ b.move_history, 0 ≤ e.1.col ∧ e.1.col < (b.config.cols : Int)) ∧
  (∀ c < b.config.cols, ∃ h, colState b c h)

theorem inv_new (cfg : GameConfig) : Inv (GameBoard.new cfg) := by
  refine ⟨⟨by simp [GameBoard.new], ?_⟩, ?_, ?_⟩
  · intro row hrow
    simp only [GameBoard.new] at hrow
    rw [List.eq_of_mem_replicate hrow]
    simp [GameBoard.new]
  · intro e he
    simp [GameBoard.new] at he
  · intro c _
    refine ⟨0, Nat.zero_le _, ?_, ?_⟩
    · intro r hr
      constructor
      · intro hne
        exact absurd (getCell_new _ _ _ _) hne
      · intro hge
        omega
    · simp [colHistRows, descRows, GameBoard.new]

theorem inv_reset (b : GameBoard) : Inv b.reset := by
  have h := inv_new b.config
  exact h

theorem inv_gravity (b : GameBoard) (h : Inv b) : gravityOK b := by
  intro c hc r hr he
  obtain ⟨hh, hcs⟩ := h.2.2 c hc
  obtain ⟨_, hiff, _⟩ := hcs
  by_contra hne
  have h1 := (hiff r (by omega)).mp hne
  have h2 := (hiff (r + 1) (by omega)).mpr (by omega)
  exact h2 he

theorem wf_row_len (b : GameBoard) (hwf : wellFormed b) (r : Nat)
    (hr : r < b.config.rows) : (b.board.getD r []).length = b.config.cols := by
  have hlen : r < b.board.length := by rw [hwf.1]; exact hr
  apply hwf.2
  rw [List.getD_eq_getElem?_getD, List.getElem?_eq_getElem hlen, Option.getD_some]
  exact List.getElem_mem hlen

theorem histRows_append (l : List (Position × Player)) (e : Position × Player)
    (c : Nat) :
    ((l ++ [e]).filter (fun x => x.1.col == (c : Int))).map (fun x => x.1.row) =
      ((l.filter (fun x => x.1.col == (c : Int))).map (fun x => x.1.row)) ++
        (if e.1.col == (c : Int) then [e.1.row] else []) := by
  rw [List.filter_append, List.map_append]
  congr 1
  cases hb : (e.1.col == (c : Int)) with
  | true => simp [List.filter_cons, hb]
  | false => simp [List.filter_cons, hb]

theorem descRows_succ (rows h : Nat) :
    descRows rows (h + 1) = descRows rows h ++ [((rows - 1 - h : Nat) : Int)] := by
  unfold descRows
  rw [List.range_succ, List.map_append]
  rfl

theorem inv_make_move (b : GameBoard) (col : Int) (p : Player)
    (hInv : Inv b) (hp : p ≠ Player.EMPTY) : Inv (b.make_move col p).2 := by
  by_cases hs : (b.make_move col p).1 = MoveResult.SUCCESS
  · obtain ⟨h1, h2, row, hscan, heq⟩ := make_move_success_inv b col p hs
    rw [heq]
    obtain ⟨hwf, hent, hcols⟩ := hInv
    obtain ⟨hrow_lt, hempty, habove⟩ := scanColumn_some _ _ _ _ hscan
    have hcic : (col - 1).toNat < b.config.cols := by omega
    obtain ⟨h, hhle, hiff, hhist⟩ := hcols (col - 1).toNat hcic
    have hrlt : row < b.config.rows - h := by
      by_contra hge
      exact (hiff row hrow_lt).mpr (by omega) hempty
    have hrow_eq : row = b.config.rows - h - 1 := by
      by_contra hne
      have hr' : b.config.rows - h - 1 < b.config.rows := by omega
      have hcell' : getCell b.board (b.config.rows - h - 1) (col - 1).toNat =
          Player.EMPTY := by
        by_contra hocc
        have := (hiff _ hr').mp hocc
        omega
      exact habove _ (by omega) hr' hcell'
    simp only [mkSuccessBoard]
    refine ⟨?_, ?_, ?_⟩
    · exact wellFormed_setCell b row (col - 1).toNat p ⟨hwf.1, hwf.2⟩ _
    · intro e he
      dsimp only at he ⊢
      rcases List.mem_append.mp he with hmem | hmem
      · exact hent e hmem
      · have he' : e = ({ row := (row : Int), col := col - 1 }, p) := by
          simpa using hmem
        rw [he']
        exact ⟨by dsimp only; omega, by dsimp only; omega⟩
    · intro c' hclt'
      dsimp only at hclt'
      by_cases hcc : c' = (col - 1).toNat
      · subst hcc
        refine ⟨h + 1, by dsimp only; omega, ?_, ?_⟩
        · intro r hr
          dsimp only at hr ⊢
          by_cases hrr : r = row
          · subst hrr
            rw [getCell_setCell_self b.board r (col - 1).toNat p
              (by rw [hwf.1]; exact hrow_lt) (by rw [wf_row_len b hwf r hrow_lt]; omega)]
            constructor
            · intro _
              omega
            · intro _
              exact hp
          · rw [getCell_setCell_ne b.board row (col - 1).toNat r (col - 1).toNat p
              (Or.inl hrr)]
            rw [hiff r hr]
            omega
        · show colHistRows
            { b with
              board := setCell b.board row (col - 1).toNat p
              move_history := b.move_history ++
                [({ row := (row : Int), col := col - 1 }, p)] } (col - 1).toNat =
            descRows b.config.rows (h + 1)
          unfold colHistRows at hhist ⊢
          rw [histRows_append]
          simp only
          rw [if_pos (by simp only [beq_iff_eq]; omega)]
          rw [hhist, descRows_succ]
          congr 2
          omega
      · obtain ⟨h', hhle', hiff', hhist'⟩ := hcols c' hclt'
        refine ⟨h', by dsimp only; exact hhle', ?_, ?_⟩
        · intro r hr
          dsimp only at hr ⊢
          rw [getCell_setCell_ne b.board row (col - 1).toNat r c' p (Or.inr hcc)]
          exact hiff' r hr
        · show colHistRows
            { b with
              board := setCell b.board row (col - 1).toNat p
              move_history := b.move_history ++
                [({ row := (row : Int), col := col - 1 }, p)] } c' =
            descRows b.config.rows h'
          unfold colHistRows at hhist' ⊢
          rw [histRows_append]
          simp only
          rw [if_neg (by simp only [beq_iff_eq]; omega)]
          rw [List.append_nil]
          exact hhist'
  · rcases make_move_result_cases b col p with he | he | ⟨row, he⟩
    · rw [he]
      exact hInv
    · rw [he]
      exact hInv
    · rw [he] at hs
      simp at hs

theorem inv_undo (b : GameBoard) (hInv : Inv b) : Inv b.undo_last_move.2 := by
  obtain ⟨hwf, hent, hcols⟩ := hInv
  rcases List.eq_nil_or_concat b.move_history with hnil | ⟨l, e, hle⟩
  · have hu : b.undo_last_move = (false, b) := by
      unfold GameBoard.undo_last_move
      rw [hnil]
      rfl
    rw [hu]
    exact ⟨hwf, hent, hcols⟩
  · rw [List.concat_eq_append] at hle
    obtain ⟨pos, pl⟩ := e
    have hlast : b.move_history.getLast? = some (pos, pl) := by
      rw [hle]
      exact List.getLast?_concat l
    have hundo : b.undo_last_move = (true,
        { b with
          board := setCell b.board pos.row.toNat pos.col.toNat Player.EMPTY
          move_history := b.move_history.dropLast }) := by
      unfold GameBoard.undo_last_move
      rw [hlast]
    rw [hundo]
    have hdrop : b.move_history.dropLast = l := by
      rw [hle]
      exact List.dropLast_concat
    have hee : (pos, pl) ∈ b.move_history := by
      rw [hle]
      exact List.mem_append_right l (List.mem_singleton_self _)
    obtain ⟨hc0, hclt⟩ := hent _ hee
    dsimp only at hc0 hclt
    have hcec : pos.col.toNat < b.config.cols := by omega
    obtain ⟨h, hhle, hiff, hhist⟩ := hcols pos.col.toNat hcec
    have hsplit : colHistRows b pos.col.toNat =
        ((l.filter (fun x => x.1.col == ((pos.col.toNat : Nat) : Int))).map
          (fun x => x.1.row)) ++ [pos.row] := by
      unfold colHistRows
      rw [hle, histRows_append]
      rw [if_pos (by
        show ((pos, pl).1.col == ((pos.col.toNat : Nat) : Int)) = true
        simp only [beq_iff_eq]
        show pos.col = ((pos.col.toNat : Nat) : Int)
        omega)]
    have hne0 : h ≠ 0 := by
      intro h0
      rw [h0] at hhist
      rw [hsplit] at hhist
      simp [descRows] at hhist
    have hh1 : h - 1 + 1 = h := by omega
    have hdesc := descRows_succ b.config.rows (h - 1)
    rw [hh1] at hdesc
    have hsplit2 : ((l.filter (fun x => x.1.col == ((pos.col.toNat : Nat) : Int))).map
        (fun x => x.1.row)) ++ [pos.row] =
        descRows b.config.rows (h - 1) ++
          [((b.config.rows - 1 - (h - 1) : Nat) : Int)] := by
      rw [← hsplit, hhist, hdesc]
    obtain ⟨hfilter_l, hrow_e⟩ := List.append_inj' hsplit2 rfl
    have hrow : pos.row = ((b.config.rows - h : Nat) : Int) := by
      have hr1 : pos.row = ((b.config.rows - 1 - (h - 1) : Nat) : Int) := by
        simpa using hrow_e
      omega
    have hrowNat : pos.row.toNat = b.config.rows - h := by omega
    have hrlt : b.config.rows - h < b.config.rows := by omega
    refine ⟨?_, ?_, ?_⟩
    · exact wellFormed_setCell b _ _ Player.EMPTY ⟨hwf.1, hwf.2⟩ _
    · intro e' he'
      dsimp only at he'
      rw [hdrop] at he'
      exact hent e' (by rw [hle]; exact List.mem_append_left _ he')
    · intro c' hclt'
      dsimp only at hclt'
      by_cases hcc : c' = pos.col.toNat
      · subst hcc
        refine ⟨h - 1, by dsimp only; omega, ?_, ?_⟩
        · intro r hr
          dsimp only at hr ⊢
          rw [hrowNat]
          by_cases hrr : r = b.config.rows - h
          · subst hrr
            rw [getCell_setCell_self b.board _ _ Player.EMPTY
              (by rw [hwf.1]; exact hrlt)
              (by rw [wf_row_len b hwf _ hrlt]; omega)]
            constructor
            · intro hneq
              exact absurd rfl hneq
            · intro hge
              exact absurd hge (by omega)
          · rw [getCell_setCell_ne b.board _ _ r _ Player.EMPTY (Or.inl hrr)]
            rw [hiff r hr]
            omega
        · show colHistRows
            { b with
              board := setCell b.board pos.row.toNat pos.col.toNat Player.EMPTY
              move_history := b.move_history.dropLast } pos.col.toNat =
            descRows b.config.rows (h - 1)
          unfold colHistRows
          dsimp only
          rw [hdrop]
          exact hfilter_l
      · obtain ⟨h', hhle', hiff', hhist'⟩ := hcols c' hclt'
        refine ⟨h', by dsimp only; exact hhle', ?_, ?_⟩
        · intro r hr
          dsimp only at hr ⊢
          rw [getCell_setCell_ne b.board _ _ r c' Player.EMPTY
            (Or.inr (fun hcon => hcc hcon))]
          exact hiff' r hr
        · show colHistRows
            { b with
              board := setCell b.board pos.row.toNat pos.col.toNat Player.EMPTY
              move_history := b.move_history.dropLast } c' =
            descRows b.config.rows h'
          unfold colHistRows
          dsimp only
          rw [hdrop]
          have hfc : colHistRows b c' =
              (l.filter (fun x => x.1.col == ((c' : Nat) : Int))).map
                (fun x => x.1.row) := by
            unfold colHistRows
            rw [hle, histRows_append]
            rw [if_neg (by
        show ¬((pos, pl).1.col == ((c' : Nat) : Int)) = true
        simp only [beq_iff_eq]
        show ¬pos.col = ((c' : Nat) : Int)
        omega)]
            rw [List.append_nil]
          rw [← hfc]
          exact hhist'

/-- The invariant holds on every reachable state. -/
theorem reachable_inv (cfg : GameConfig) (b : GameBoard)
    (h : Reachable cfg b) : Inv b := by
  induction h with
  | init => exact inv_new cfg
  | step_move b0 col p hp _ ih => exact inv_make_move b0 col p ih hp
  | step_undo b0 _ ih => exact inv_undo b0 ih
  | step_reset b0 _ ih => exact inv_reset b0

/-- C3: every board state reachable from a freshly constructed board through
any sequence of `make_move` (with a player mark), `undo_last_move` and
`reset` calls satisfies the gravity invariant: in every column, every cell
below an occupied cell is itself occupied. -/
theorem reachable_gravity (cfg : GameConfig) (b : GameBoard)
    (h : Reachable cfg b) : gravityOK b :=
  inv_gravity b (reachable_inv cfg b h)

/-- C3 witness: the board after one concrete move is reachable and satisfies
gravity. -/
theorem reachable_gravity_witness : gravityOK boardStd3 :=
  reachable_gravity cfgStd boardStd3
    (Reachable.step_move boardStd 3 Player.RED (by decide) Reachable.init)

/-- C10: on every reachable board state (and in-range column of a board with
at least one row), the row-0 test of `is_valid_move` is equivalent to the
column containing an empty cell; consequently, whenever `is_valid_move`
passes, `make_move` returns `SUCCESS` — the trailing `COLUMN_FULL` return
after the scan loop is unreachable. -/
theorem top_cell_test_equiv (cfg : GameConfig) (b : GameBoard)
    (hreach : Reachable cfg b) (hrows : 0 < b.config.rows) (col : Int)
    (h1 : 1 ≤ col) (h2 : col ≤ (b.config.cols : Int)) :
    (getCell b.board 0 (col - 1).toNat = Player.EMPTY ↔
      colHasEmpty b (col - 1).toNat) ∧
    (b.is_valid_move col = true →
      ∀ p, (b.make_move col p).1 = MoveResult.SUCCESS) := by
  have hInv := reachable_inv cfg b hreach
  obtain ⟨h, hhle, hiff, _⟩ := hInv.2.2 (col - 1).toNat (by omega)
  constructor
  · constructor
    · intro htop
      exact ⟨0, hrows, htop⟩
    · intro hce
      obtain ⟨r, hr, he⟩ := hce
      by_contra hne
      have h0 := (hiff 0 hrows).mp hne
      have hr2 : r < b.config.rows - h := by
        by_contra hge
        exact (hiff r hr).mpr (by omega) he
      omega
  · intro hv p
    obtain ⟨_, _, htop⟩ := (is_valid_move_iff b col).mp hv
    rcases make_move_cases b col p h1 h2 with ⟨hne, _⟩ | ⟨_, hin⟩
    · exact absurd htop hne
    · rcases hin with ⟨hnone, _⟩ | ⟨row, _, heq⟩
      · exact absurd htop ((scanColumn_none_iff _ _ _).mp hnone 0 hrows)
      · rw [heq]

/-- C10 witness: the equivalence and the success consequence at a concrete
reachable board and column. -/
theorem top_cell_test_equiv_witness :
    (getCell boardStd3.board 0 ((3 : Int) - 1).toNat = Player.EMPTY ↔
      colHasEmpty boardStd3 ((3 : Int) - 1).toNat) ∧
    (boardStd3.is_valid_move 3 = true →
      ∀ p, (boardStd3.make_move 3 p).1 = MoveResult.SUCCESS) :=
  top_cell_test_equiv cfgStd boardStd3
    (Reachable.step_move boardStd 3 Player.RED (by decide) Reachable.init)
    (by decide) 3 (by decide) (by decide)

/-! ## Heuristic opponent lemmas -/

theorem get_valid_moves_valid (b : GameBoard) (m : Int)
    (hm : m ∈ b.get_valid_moves) : b.is_valid_move m = true := by
  unfold GameBoard.get_valid_moves at hm
  obtain ⟨c, hcf, rfl⟩ := List.mem_map.mp hm
  exact (List.mem_filter.mp hcf).2

theorem make_move_success_of_valid (b : GameBoard) (col : Int) (p : Player)
    (hrows : 0 < b.config.rows) (hv : b.is_valid_move col = true) :
    (b.make_move col p).1 = MoveResult.SUCCESS := by
  obtain ⟨h1, h2, htop⟩ := (is_valid_move_iff b col).mp hv
  rcases make_move_cases b col p h1 h2 with ⟨hne, _⟩ | ⟨_, hin⟩
  · exact absurd htop hne
  · rcases hin with ⟨hnone, _⟩ | ⟨row, _, heq⟩
    · exact absurd htop ((scanColumn_none_iff _ _ _).mp hnone 0 hrows)
    · rw [heq]

theorem find_winner_none_of_playing (b : GameBoard)
    (h : b.check_winner = GameState.PLAYING) : b.find_winner_on_board = none := by
  cases hf : b.find_winner_on_board with
  | none => rfl
  | some w =>
    unfold GameBoard.check_winner at h
    rw [hf] at h
    have hwne := find_winner_ne_empty b w hf
    cases w
    · simp [player_to_game_state] at h
    · simp [player_to_game_state] at h
    · exact absurd rfl hwne

/-- The column the `_find_winning_move` loop would return, computed purely
against the starting board (legitimate because each iteration restores the
board exactly). -/
def firstWin (b : GameBoard) (player : Player) : List Int → Option Int
  | [] => none
  | m :: ms =>
    if ((b.make_move m player).2).check_winner ≠ GameState.PLAYING then some m
    else firstWin b player ms

theorem find_winning_move_loop_spec (b : GameBoard) (player : Player)
    (hwf : wellFormed b) (hrows : 0 < b.config.rows) (ms : List Int)
    (hms : ∀ m ∈ ms, b.is_valid_move m = true) :
    find_winning_move_loop player b ms = (firstWin b player ms, b) := by
  induction ms with
  | nil => rfl
  | cons m ms ih =>
    have hvm := hms m (List.mem_cons_self _ _)
    have hsucc := make_move_success_of_valid b m player hrows hvm
    have hrestore := undo_restores b m player hwf hsucc
    have hr2 : ((b.make_move m player).2).undo_last_move.2 = b := by rw [hrestore]
    show (if ((b.make_move m player).2).check_winner ≠ GameState.PLAYING then
        (some m, ((b.make_move m player).2).undo_last_move.2)
      else find_winning_move_loop player ((b.make_move m player).2).undo_last_move.2 ms) =
      (if ((b.make_move m player).2).check_winner ≠ GameState.PLAYING then some m
        else firstWin b player ms, b)
    by_cases hw : ((b.make_move m player).2).check_winner ≠ GameState.PLAYING
    · rw [if_pos hw, if_pos hw, hr2]
    · rw [if_neg hw, if_neg hw, hr2]
      exact ih (fun m' hm' => hms m' (List.mem_cons_of_mem _ hm'))

theorem firstWin_some_of_exists (b : GameBoard) (player : Player) (ms : List Int)
    (hex : ∃ m ∈ ms, ((b.make_move m player).2).check_winner ≠ GameState.PLAYING) :
    ∃ m0, firstWin b player ms = some m0 ∧ m0 ∈ ms ∧
      ((b.make_move m0 player).2).check_winner ≠ GameState.PLAYING := by
  induction ms with
  | nil =>
    obtain ⟨m, hm, _⟩ := hex
    simp at hm
  | cons m ms ih =>
    unfold firstWin
    by_cases hw : ((b.make_move m player).2).check_winner ≠ GameState.PLAYING
    · rw [if_pos hw]
      exact ⟨m, rfl, List.mem_cons_self _ _, hw⟩
    · rw [if_neg hw]
      obtain ⟨m1, hm1, hw1⟩ := hex
      rcases List.mem_cons.mp hm1 with rfl | hmem
      · exact absurd hw1 hw
      · obtain ⟨m0, h0, hm0, hw0⟩ := ih ⟨m1, hmem, hw1⟩
        exact ⟨m0, h0, List.mem_cons_of_mem _ hm0, hw0⟩

theorem firstWin_some_inv (b : GameBoard) (player : Player) (ms : List Int)
    (m0 : Int) (h : firstWin b player ms = some m0) :
    m0 ∈ ms ∧ ((b.make_move m0 player).2).check_winner ≠ GameState.PLAYING := by
  induction ms with
  | nil => simp [firstWin] at h
  | cons m ms ih =>
    unfold firstWin at h
    by_cases hw : ((b.make_move m player).2).check_winner ≠ GameState.PLAYING
    · rw [if_pos hw] at h
      obtain rfl : m = m0 := by simpa using h
      exact ⟨List.mem_cons_self _ _, hw⟩
    · rw [if_neg hw] at h
      obtain ⟨hm0, hw0⟩ := ih h
      exact ⟨List.mem_cons_of_mem _ hm0, hw0⟩

/-- On a board with no current winner, any winner detected right after a
successful placement of `p`'s mark is `p` itself. -/
theorem post_winner_is_mover (b : GameBoard) (col : Int) (p q : Player)
    (hwf : wellFormed b) (hL : 0 < b.config.win_length)
    (hnone : b.find_winner_on_board = none)
    (hs : (b.make_move col p).1 = MoveResult.SUCCESS)
    (hq : ((b.make_move col p).2).find_winner_on_board = some q) : q = p := by
  by_contra hqp
  obtain ⟨h1, h2, row, hscan, heq⟩ := make_move_success_inv b col p hs
  rw [heq] at hq
  obtain ⟨hrow_lt, _, _⟩ := scanColumn_some _ _ _ _ hscan
  have hrunpost := find_winner_hasWinRun _ q hq
  obtain ⟨hqne, pos, d, hrun⟩ := hrunpost
  have hrunpre : hasWinRun b q := by
    refine ⟨hqne, pos, d, ?_⟩
    intro i hi
    have hstep := hrun i hi
    refine ⟨hstep.1, ?_⟩
    have hcell := hstep.2
    by_cases hco : (pos.move_by_direction d (i : Int)).row.toNat = row ∧
        (pos.move_by_direction d (i : Int)).col.toNat = (col - 1).toNat
    · have hcp : cellAtPos (mkSuccessBoard b col p row).board
          (pos.move_by_direction d (i : Int)) = p := by
        unfold cellAtPos mkSuccessBoard
        dsimp only
        rw [hco.1, hco.2]
        exact getCell_setCell_self _ _ _ _ (by rw [hwf.1]; exact hrow_lt)
          (by rw [wf_row_len b hwf row hrow_lt]; omega)
      exact absurd (hcp.symm.trans hcell).symm hqp
    · rcases not_and_or.mp hco with hco' | hco'
      · unfold cellAtPos mkSuccessBoard at hcell
        dsimp only at hcell
        rw [getCell_setCell_ne _ _ _ _ _ _ (Or.inl hco')] at hcell
        exact hcell
      · unfold cellAtPos mkSuccessBoard at hcell
        dsimp only at hcell
        rw [getCell_setCell_ne _ _ _ _ _ _ (Or.inr hco')] at hcell
        exact hcell
  exact find_winner_of_run b q hL hrunpre hnone

/-- If a successful placement in column `col` fills the board, `col` was the
only valid column. -/
theorem post_full_unique_valid (b : GameBoard) (col : Int) (p : Player)
    (row : Nat) (h1 : 1 ≤ col) (h2 : col ≤ (b.config.cols : Int))
    (hfull : (mkSuccessBoard b col p row).is_full = true)
    (m' : Int) (hm' : m' ∈ b.get_valid_moves) : m' = col := by
  by_contra hne
  have hv' := get_valid_moves_valid b m' hm'
  obtain ⟨hm1, hm2, htop⟩ := (is_valid_move_iff b m').mp hv'
  have hcc : (m' - 1).toNat ≠ (col - 1).toNat := by omega
  unfold GameBoard.is_full at hfull
  simp only [mkSuccessBoard] at hfull
  rw [List.all_eq_true] at hfull
  have hc'' := hfull (m' - 1).toNat (List.mem_range.mpr (by omega))
  rw [bne_iff_ne] at hc''
  apply hc''
  show getCell (setCell b.board row (col - 1).toNat p) 0 (m' - 1).toNat = Player.EMPTY
  rw [getCell_setCell_ne _ _ _ _ _ _ (Or.inr hcc)]
  exact htop

/-- Placing mark `p` in valid column `m` ends the round as a win for `p`. -/
def winsFor (b : GameBoard) (m : Int) (p : Player) : Prop :=
  ((b.make_move m p).2).check_winner = player_to_game_state p

instance (b : GameBoard) (m : Int) (p : Player) : Decidable (winsFor b m p) := by
  unfold winsFor
  infer_instance

/-- Any valid column whose simulated placement leaves a non-`PLAYING` state
is either an own win or was the unique valid column (a board-filling draw). -/
theorem post_check_cases (b : GameBoard) (p : Player) (m0 : Int)
    (hwf : wellFormed b) (hL : 0 < b.config.win_length)
    (hnone : b.find_winner_on_board = none)
    (hm0 : m0 ∈ b.get_valid_moves) (hrows : 0 < b.config.rows)
    (hw : ((b.make_move m0 p).2).check_winner ≠ GameState.PLAYING) :
    winsFor b m0 p ∨ (∀ m' ∈ b.get_valid_moves, m' = m0) := by
  have hvm := get_valid_moves_valid b m0 hm0
  have hsucc := make_move_success_of_valid b m0 p hrows hvm
  obtain ⟨h1, h2, row, hscan, heq⟩ := make_move_success_inv b m0 p hsucc
  cases hq : ((b.make_move m0 p).2).find_winner_on_board with
  | some q =>
    have hqp := post_winner_is_mover b m0 p q hwf hL hnone hsucc hq
    left
    unfold winsFor GameBoard.check_winner
    rw [hq, hqp]
  | none =>
    unfold GameBoard.check_winner at hw
    rw [hq] at hw
    by_cases hfull : ((b.make_move m0 p).2).is_full = true
    · right
      intro m' hm'
      rw [heq] at hfull
      exact post_full_unique_valid b m0 p row h1 h2 hfull m' hm'
    · rw [Bool.not_eq_true] at hfull
      rw [hfull] at hw
      exact absurd rfl hw

/-- C6: on an in-progress board, when the exploration branch is not taken,
`get_move` returns a winning column whenever one exists, and when no own
winning column exists but exactly one valid column blocks the adversary's
immediate win, it returns that blocking column. -/
theorem get_move_strategic_spec (b : GameBoard) (p : Player)
    (hwf : wellFormed b) (hv : b.config.valid) (hp : p ≠ Player.EMPTY)
    (hplay : b.check_winner = GameState.PLAYING) :
    ((∃ m ∈ b.get_valid_moves, winsFor b m p) →
      ∃ m0, (get_move_strategic b p).1 = some m0 ∧ m0 ∈ b.get_valid_moves ∧
        winsFor b m0 p) ∧
    (∀ m ∈ b.get_valid_moves, winsFor b m p.opposite →
      (¬ ∃ m1 ∈ b.get_valid_moves, winsFor b m1 p) →
      (∀ m' ∈ b.get_valid_moves, winsFor b m' p.opposite → m' = m) →
      (get_move_strategic b p).1 = some m) := by
  have hrows : 0 < b.config.rows := by
    obtain ⟨ha, _⟩ := hv
    omega
  have hL : 0 < b.config.win_length := by
    obtain ⟨_, _, _, _, h5, _⟩ := hv
    omega
  have hnone := find_winner_none_of_playing b hplay
  have hloop := find_winning_move_loop_spec b p hwf hrows b.get_valid_moves
    (fun m hm => get_valid_moves_valid b m hm)
  have hloopOpp := find_winning_move_loop_spec b p.opposite hwf hrows
    b.get_valid_moves (fun m hm => get_valid_moves_valid b m hm)
  have hpgs : player_to_game_state p ≠ GameState.PLAYING := by
    cases p
    · simp [player_to_game_state]
    · simp [player_to_game_state]
    · exact absurd rfl hp
  have hpo : p.opposite ≠ Player.EMPTY := by
    cases p
    · simp [Player.opposite]
    · simp [Player.opposite]
    · exact absurd rfl hp
  have hpgso : player_to_game_state p.opposite ≠ GameState.PLAYING := by
    cases hpp : p.opposite
    · simp [player_to_game_state]
    · simp [player_to_game_state]
    · exact absurd hpp hpo
  constructor
  · rintro ⟨m, hm, hwin⟩
    have hmne : b.get_valid_moves ≠ [] := by
      intro h0
      rw [h0] at hm
      simp at hm
    have hWm : ((b.make_move m p).2).check_winner ≠ GameState.PLAYING := by
      unfold winsFor at hwin
      rw [hwin]
      exact hpgs
    obtain ⟨m0, hfw, hm0mem, hw0⟩ := firstWin_some_of_exists b p _ ⟨m, hm, hWm⟩
    have hres : get_move_strategic b p = (some m0, b) := by
      unfold get_move_strategic find_winning_move
      rw [if_neg hmne, hloop, hfw]
    refine ⟨m0, by rw [hres], hm0mem, ?_⟩
    rcases post_check_cases b p m0 hwf hL hnone hm0mem hrows hw0 with hwin0 | huniq
    · exact hwin0
    · have hmm : m = m0 := huniq m hm
      rw [← hmm]
      exact hwin
  · intro m hm hblock hnowin huniq
    have hmne : b.get_valid_moves ≠ [] := by
      intro h0
      rw [h0] at hm
      simp at hm
    cases hfw : firstWin b p b.get_valid_moves with
    | some m0 =>
      obtain ⟨hm0mem, hw0⟩ := firstWin_some_inv b p _ m0 hfw
      rcases post_check_cases b p m0 hwf hL hnone hm0mem hrows hw0 with hwin0 | huniq0
      · exact absurd ⟨m0, hm0mem, hwin0⟩ hnowin
      · have hmm : m = m0 := huniq0 m hm
        have hres : get_move_strategic b p = (some m0, b) := by
          unfold get_move_strategic find_winning_move
          rw [if_neg hmne, hloop, hfw]
        rw [hres]
        show some m0 = some m
        rw [hmm]
    | none =>
      have hWm : ((b.make_move m p.opposite).2).check_winner ≠ GameState.PLAYING := by
        unfold winsFor at hblock
        rw [hblock]
        exact hpgso
      obtain ⟨m1, hfw1, hm1mem, hw1⟩ :=
        firstWin_some_of_exists b p.opposite _ ⟨m, hm, hWm⟩
      have hres : get_move_strategic b p = (some m1, b) := by
        unfold get_move_strategic find_winning_move
        rw [if_neg hmne, hloop, hfw]
        dsimp only
        rw [hloopOpp, hfw1]
      rcases post_check_cases b p.opposite m1 hwf hL hnone hm1mem hrows hw1 with
        hwin1 | huniq1
      · have hmm : m1 = m := huniq m1 hm1mem hwin1
        rw [hres]
        show some m1 = some m
        rw [hmm]
      · have hmm : m = m1 := huniq1 m hm
        rw [hres]
        show some m1 = some m
        rw [hmm]

/-- Default board with three YELLOW pieces stacked in column 1. -/
def boardVert3 : GameBoard :=
  (((boardStd.make_move 1 Player.YELLOW).2.make_move 1
    Player.YELLOW).2.make_move 1 Player.YELLOW).2

/-- C6 witness: with three YELLOW pieces stacked in column 1, the strategic
path returns the winning column 1 for YELLOW. -/
theorem get_move_strategic_spec_witness :
    wellFormed boardVert3 ∧ boardVert3.check_winner = GameState.PLAYING ∧
    (∃ m0, (get_move_strategic boardVert3 Player.YELLOW).1 = some m0 ∧
      m0 ∈ boardVert3.get_valid_moves ∧ winsFor boardVert3 m0 Player.YELLOW) :=
  ⟨by decide, by decide,
   (get_move_strategic_spec boardVert3 Player.YELLOW (by decide) (by decide)
     (by decide) (by decide)).1
     ⟨1, by decide, by decide⟩⟩

end Connect4
